import Mathlib

/-!
Verification of the shortest-path core of `pancake_flipping.py` (the
"Harried Waiter" game).  The embedded code is the `Graph` class — prefix
reversal (`flip`), the vertex codec (`make_vertex_key` / `make_vertex_name`),
lazy neighbor generation (`find_neighbors`), the breadth-first search
(`BFS`), path reconstruction (`traceback`) — together with the admission
guard `Game.BFS_eligible`.

Python strings are embedded as `List Char`; Python `int`/`str` conversion is
embedded as decimal rendering/parsing over `List Char`.  The BFS `while`
loop is embedded as a fuel-indexed iteration of a single-dequeue step
function; a run that returns `some` corresponds to a Python run that
terminated normally, `none` covers both insufficient fuel and an uncaught
`KeyError`/`ValueError` (which the development proves unreachable from the
initial state).
-/

namespace Pancake

/-! ## The flip operation (`Graph.flip`) -/

/-- `Graph.flip`: prefix reversal of the first `n_to_flip + 1` entries,
negating each reversed entry when `burnt`.  Mirrors the Python loop
`for i in range(len(vertex_name)): if i <= n_to_flip: ... else: ...`. -/
def flip (burnt : Bool) (vertex_name : List Int) (n_to_flip : Nat) : List Int :=
  (List.range vertex_name.length).map fun i =>
    if i ≤ n_to_flip then
      (if burnt then (-1 : Int) else 1) * vertex_name.getD (n_to_flip - i) 0
    else
      vertex_name.getD i 0

/-! ## The vertex codec (`Graph.make_vertex_key`, `Graph.make_vertex_name`) -/

/-- Decimal digit characters of a positive natural number, most
significant first, by repeated division; the fuel argument (any value
`≥ n` suffices) makes the recursion structural. -/
def natCharsAux : Nat → Nat → List Char
  | 0, _ => []
  | fuel + 1, n =>
    if n = 0 then [] else natCharsAux fuel (n / 10) ++ [Nat.digitChar (n % 10)]

/-- Decimal digit characters of a natural number, most significant first;
the embedding of Python `str` on a nonnegative integer. -/
def natChars (n : Nat) : List Char :=
  if n = 0 then ['0'] else natCharsAux n n

/-- The embedding of Python `str` on an `int`: optional minus sign followed
by the decimal digits of the absolute value. -/
def intChars (i : Int) : List Char :=
  if i < 0 then '-' :: natChars i.natAbs else natChars i.toNat

/-- `":".join(parts)`. -/
def joinColon : List (List Char) → List Char
  | [] => []
  | [p] => p
  | p :: ps => p ++ ':' :: joinColon ps

/-- `s.split(":")`: split on every colon, keeping empty segments. -/
def splitColon : List Char → List (List Char)
  | [] => [[]]
  | c :: t =>
    match splitColon t with
    | [] => [[]]
    | g :: gs => if c = ':' then [] :: g :: gs else (c :: g) :: gs

/-- Is `c` a decimal digit? -/
def isDigit (c : Char) : Bool := decide (48 ≤ c.toNat) && decide (c.toNat ≤ 57)

/-- Value of a digit string, most significant first. -/
def digitsVal (l : List Char) : Nat :=
  l.foldl (fun a c => 10 * a + (c.toNat - 48)) 0

/-- The embedding of Python `int` on a string of decimal digits: `none`
models a raised `ValueError`. -/
def charsNat? (l : List Char) : Option Nat :=
  if l ≠ [] ∧ l.all isDigit then some (digitsVal l) else none

/-- The embedding of Python `int` on a full string: an optional sign
character followed by at least one digit. -/
def charsInt? : List Char → Option Int
  | [] => none
  | c :: t =>
    if c = '-' then (charsNat? t).map (fun n => -(n : Int))
    else if c = '+' then (charsNat? t).map (fun n => (n : Int))
    else (charsNat? (c :: t)).map (fun n => (n : Int))

/-- A vertex key: the embedding of the Python `str` vertex key. -/
abbrev Key := List Char

/-- `Graph.make_vertex_key`: `":".join([str(i) for i in vertex_name])`. -/
def make_vertex_key (vertex_name : List Int) : Key :=
  joinColon (vertex_name.map intChars)

/-- Decode each colon-separated segment; `none` models a `ValueError`
raised by `int`. -/
def decodeParts : List (List Char) → Option (List Int)
  | [] => some []
  | p :: ps =>
    match charsInt? p, decodeParts ps with
    | some i, some t => some (i :: t)
    | _, _ => none

/-- `Graph.make_vertex_name`: `[int(i) for i in vertex_key.split(":")]`. -/
def make_vertex_name (vertex_key : Key) : Option (List Int) :=
  decodeParts (splitColon vertex_key)

/-! ## The visited map and BFS state -/

/-- One record of the `visited` dictionary:
`{"name": ..., "dist": ..., "prev": ...}`. -/
structure VRec where
  name : List Int
  dist : Nat
  prev : Option Key
  deriving Repr, DecidableEq

/-- Dictionary lookup in the visited map (embedded as an association
list); `none` models a `KeyError`. -/
def vfind : List (Key × VRec) → Key → Option VRec
  | [], _ => none
  | (k, r) :: t, k' => if k = k' then some r else vfind t k'

/-- The mutable state of one `Graph` traversal: the `visited` dictionary,
the queue, and the two result fields. -/
structure BFSState where
  visited : List (Key × VRec)
  queue : List Key
  fewest_moves : Option Nat
  best_path : List Key
  deriving Repr, DecidableEq

/-- `Graph.find_neighbors`: look the key up in `visited` (a `KeyError`,
modelled as `none`, if absent — the method never decodes its argument) and
return the keys of all prefix reversals of the stored name, one per prefix
length `0..n-1`, in order. -/
def find_neighbors (burnt : Bool) (visited : List (Key × VRec)) (vertex_key : Key) :
    Option (List Key) :=
  (vfind visited vertex_key).map fun r =>
    (List.range r.name.length).map fun i => make_vertex_key (flip burnt r.name i)

/-- The body of the `for i in self.find_neighbors(vertex_key)` loop: insert
each not-yet-visited neighbor with distance `d + 1` and predecessor `pk,`
appending its key to the queue.  `none` models a `ValueError` from
`make_vertex_name`. -/
def insertNeighbors (visited : List (Key × VRec)) (queue : List Key) (d : Nat)
    (pk : Key) : List Key → Option (List (Key × VRec) × List Key)
  | [] => some (visited, queue)
  | nk :: rest =>
    match vfind visited nk with
    | some _ => insertNeighbors visited queue d pk rest
    | none =>
      match make_vertex_name nk with
      | none => none
      | some nm =>
        insertNeighbors ((nk, ⟨nm, d + 1, some pk⟩) :: visited) (queue ++ [nk]) d pk rest

/-- `Graph.traceback`, with explicit fuel for the `while i is not None`
loop: walk `prev` links from `i`, prepending each visited key.  `none`
models a `KeyError` or an infinite/too-long chain. -/
def tracebackFuel (visited : List (Key × VRec)) : Nat → Key → List Key → Option (List Key)
  | 0, _, _ => none
  | fuel + 1, i, acc =>
    match vfind visited i with
    | none => none
    | some r =>
      match r.prev with
      | none => some (i :: acc)
      | some p => tracebackFuel visited fuel p (i :: acc)

/-- Result of one iteration of the BFS `while queue:` loop. -/
inductive StepRes where
  | done (s : BFSState)
  | next (s : BFSState)
  | err
  deriving Repr

/-- One iteration of the `while queue:` loop of `Graph.BFS`: dequeue the
front key; if it is the goal key, record `fewest_moves` and `best_path`
via `traceback`; otherwise expand its neighbors. -/
def bfsStep (burnt : Bool) (goalKey : Key) (s : BFSState) : StepRes :=
  match s.queue with
  | [] => .done s
  | vertex_key :: rest =>
    if vertex_key = goalKey then
      match vfind s.visited vertex_key with
      | none => .err
      | some r =>
        match tracebackFuel s.visited s.visited.length goalKey [] with
        | none => .err
        | some path =>
          .next { s with queue := rest, fewest_moves := some r.dist, best_path := path }
    else
      match find_neighbors burnt s.visited vertex_key with
      | none => .err
      | some nbrs =>
        match vfind s.visited vertex_key with
        | none => .err
        | some r =>
          match insertNeighbors s.visited rest r.dist vertex_key nbrs with
          | none => .err
          | some (v', q') => .next { s with visited := v', queue := q' }

/-- Iterate `bfsStep` with fuel; `some` is a normally terminated run. -/
def bfsRun (burnt : Bool) (goalKey : Key) : Nat → BFSState → Option BFSState
  | 0, _ => none
  | fuel + 1, s =>
    match bfsStep burnt goalKey s with
    | .done s' => some s'
    | .next s' => bfsRun burnt goalKey fuel s'
    | .err => none

/-- The state set up by the head of `Graph.BFS`: `visited` holds only the
start vertex at distance 0 with no predecessor, the queue holds the start
key, and the result fields have their `Graph.__init__` values. -/
def initState (start : List Int) : BFSState :=
  { visited := [(make_vertex_key start, ⟨start, 0, none⟩)]
    queue := [make_vertex_key start]
    fewest_moves := none
    best_path := [] }

/-- `Graph.BFS` on a freshly constructed `Graph(start, goal, burnt)`. -/
def BFS (burnt : Bool) (start goal : List Int) (fuel : Nat) : Option BFSState :=
  bfsRun burnt (make_vertex_key goal) fuel (initState start)

/-! ## The admission guard (`Game.BFS_eligible`) -/

/-- `Game.BFS_eligible`:
`not self.burnt and self.stack_size < 8 or self.burnt and self.stack_size < 6`. -/
def BFS_eligible (burnt : Bool) (stack_size : Nat) : Bool :=
  (!burnt && decide (stack_size < 8)) || (burnt && decide (stack_size < 6))

/-! ## Specification-side notions: reachability by flips, valid vertices -/

/-- `ReachN burnt m v w`: `w` is reached from `v` by exactly `m` flips. -/
def ReachN (burnt : Bool) : Nat → List Int → List Int → Prop
  | 0, v, w => w = v
  | m + 1, v, w => ∃ k, k < v.length ∧ ReachN burnt m (flip burnt v k) w

/-- A valid arrangement: the absolute values are a permutation of `1..n`,
and in unsigned mode every entry is positive. -/
def ValidVertex (burnt : Bool) (v : List Int) : Prop :=
  (v.map Int.natAbs).Perm (List.range' 1 v.length) ∧
    (burnt = false → ∀ x ∈ v, 0 < x)

instance (burnt : Bool) (v : List Int) : Decidable (ValidVertex burnt v) := by
  unfold ValidVertex; infer_instance

/-- A valid query: two valid arrangements of the same length. -/
def ValidPair (burnt : Bool) (start goal : List Int) : Prop :=
  ValidVertex burnt start ∧ ValidVertex burnt goal ∧ start.length = goal.length

instance (burnt : Bool) (s g : List Int) : Decidable (ValidPair burnt s g) := by
  unfold ValidPair; infer_instance

/-! ## Basic lemmas about `flip` -/

@[simp] theorem flip_length (b : Bool) (v : List Int) (k : Nat) :
    (flip b v k).length = v.length := by
  simp [flip]

theorem flip_getElem (b : Bool) (v : List Int) (k i : Nat)
    (h : i < (flip b v k).length) :
    (flip b v k)[i] =
      if i ≤ k then (if b then (-1 : Int) else 1) * v.getD (k - i) 0
      else v.getD i 0 := by
  simp [flip]

/-- Structural characterization of `flip`: the reversed (and in burnt mode
negated) prefix of length `k + 1`, followed by the untouched tail. -/
theorem flip_eq (b : Bool) (v : List Int) (k : Nat) (hk : k < v.length) :
    flip b v k =
      ((v.take (k + 1)).reverse.map fun x => (if b then (-1 : Int) else 1) * x) ++
        v.drop (k + 1) := by
  have hlen : ((v.take (k + 1)).reverse.map
      fun x => (if b then (-1 : Int) else 1) * x).length = k + 1 := by
    simp; omega
  apply List.ext_getElem
  · simp; omega
  intro i h1 h2
  rw [flip_getElem b v k i h1]
  by_cases hik : i ≤ k
  · rw [if_pos hik]
    rw [List.getElem_append_left (by omega)]
    rw [List.getElem_map, List.getElem_reverse]
    have h3 : (v.take (k + 1)).length = k + 1 := by simp; omega
    have h4 : k + 1 - 1 - i = k - i := by omega
    simp only [h3, h4]
    rw [List.getElem_take]
    rw [List.getD_eq_getElem v 0 (by omega)]
  · rw [if_neg hik]
    rw [List.getElem_append_right (by omega)]
    simp only [hlen]
    rw [List.getElem_drop]
    have h5 : k + 1 + (i - (k + 1)) = i := by omega
    simp only [h5]
    rw [List.getD_eq_getElem v 0 (by simpa using h1)]

/-- `flip` is an involution at every valid prefix length, in both modes. -/
theorem flip_flip (b : Bool) (v : List Int) (k : Nat) (hk : k < v.length) :
    flip b (flip b v k) k = v := by
  apply List.ext_getElem (by simp)
  intro i h1 h2
  rw [flip_getElem b _ k i h1]
  by_cases hik : i ≤ k
  · rw [if_pos hik]
    rw [List.getD_eq_getElem _ 0 (by simp; omega)]
    rw [flip_getElem b v k (k - i) (by simp; omega)]
    rw [if_pos (by omega : k - i ≤ k)]
    have h3 : k - (k - i) = i := by omega
    rw [h3, List.getD_eq_getElem v 0 h2]
    cases b <;> simp
  · rw [if_neg hik]
    rw [List.getD_eq_getElem _ 0 (by simpa using h2)]
    rw [flip_getElem b v k i (by simpa using h1), if_neg hik]
    rw [List.getD_eq_getElem v 0 h2]

/-- In unsigned mode, flipping a prefix of length one is a no-op. -/
theorem flip_false_zero (v : List Int) : flip false v 0 = v := by
  rcases v with _ | ⟨x, t⟩
  · rfl
  · rw [flip_eq false (x :: t) 0 (by simp)]
    simp

/-- Every entry of a flipped vertex is an entry of the original or its
negation. -/
theorem flip_mem (b : Bool) (v : List Int) (k : Nat) (hk : k < v.length)
    (x : Int) (hx : x ∈ flip b v k) : x ∈ v ∨ -x ∈ v := by
  rw [flip_eq b v k hk] at hx
  rcases List.mem_append.mp hx with h | h
  · obtain ⟨y, hy, hxy⟩ := List.mem_map.mp h
    have hyv : y ∈ v := List.mem_of_mem_take (List.mem_reverse.mp hy)
    cases b with
    | false =>
      left
      have hx' : x = y := by rw [← hxy]; simp
      rwa [hx']
    | true =>
      right
      have hx' : -x = y := by rw [← hxy]; simp
      rwa [hx']
  · left; exact List.mem_of_mem_drop h

/-- The absolute values of a flipped vertex are a permutation of those of
the original. -/
theorem flip_natAbs_perm (b : Bool) (v : List Int) (k : Nat) (hk : k < v.length) :
    ((flip b v k).map Int.natAbs).Perm (v.map Int.natAbs) := by
  rw [flip_eq b v k hk]
  have h1 : (((v.take (k + 1)).reverse.map
        fun x => (if b then (-1 : Int) else 1) * x).map Int.natAbs)
      = ((v.take (k + 1)).map Int.natAbs).reverse := by
    have hcomp : (Int.natAbs ∘ fun x : Int => -x) = Int.natAbs := by
      funext x; exact Int.natAbs_neg x
    cases b <;> simp [List.map_map, List.map_reverse, Function.comp, hcomp]
  rw [List.map_append, h1]
  have h2 := (((v.take (k + 1)).map Int.natAbs).reverse_perm).append_right
    ((v.drop (k + 1)).map Int.natAbs)
  refine h2.trans ?_
  rw [← List.map_append, List.take_append_drop]

/-- Unsigned flips preserve positivity of all entries. -/
theorem flip_pos (v : List Int) (k : Nat) (hk : k < v.length)
    (hpos : ∀ x ∈ v, 0 < x) (x : Int) (hx : x ∈ flip false v k) : 0 < x := by
  rw [flip_eq false v k hk] at hx
  rcases List.mem_append.mp hx with h | h
  · obtain ⟨y, hy, hxy⟩ := List.mem_map.mp h
    have hyv : y ∈ v := List.mem_of_mem_take (List.mem_reverse.mp hy)
    have hy' := hpos y hyv
    have hx' : x = y := by rw [← hxy]; simp
    omega
  · exact hpos x (List.mem_of_mem_drop h)

/-- Flipping a prefix of a longer list only touches the prefix. -/
theorem flip_append (b : Bool) (u t : List Int) (k : Nat) (hk : k < u.length) :
    flip b (u ++ t) k = flip b u k ++ t := by
  rw [flip_eq b (u ++ t) k (by simp; omega), flip_eq b u k hk]
  rw [List.take_append_of_le_length (by omega), List.drop_append_of_le_length (by omega)]
  simp

/-! ## Codec lemmas: the encoder and decoder are mutual inverses -/

theorem digitChar_toNat : ∀ d, d < 10 → (Nat.digitChar d).toNat = 48 + d := by decide

theorem digitChar_isDigit : ∀ d, d < 10 → isDigit (Nat.digitChar d) = true := by decide

theorem natCharsAux_eq (fuel : Nat) : ∀ n, n ≤ fuel →
    natCharsAux fuel n = (Nat.digits 10 n).reverse.map Nat.digitChar := by
  induction fuel with
  | zero =>
    intro n hn
    have : n = 0 := by omega
    subst this
    simp [natCharsAux]
  | succ fuel ih =>
    intro n hn
    by_cases h0 : n = 0
    · subst h0; simp [natCharsAux]
    · have hdiv : n / 10 < n := Nat.div_lt_self (by omega) (by norm_num)
      rw [natCharsAux, if_neg h0]
      rw [ih (n / 10) (by omega)]
      rw [show Nat.digits 10 n = n % 10 :: Nat.digits 10 (n / 10) from
        Nat.digits_def' (by norm_num) (by omega)]
      simp

theorem natChars_eq (n : Nat) (h : n ≠ 0) :
    natChars n = (Nat.digits 10 n).reverse.map Nat.digitChar := by
  rw [natChars, if_neg h, natCharsAux_eq n n le_rfl]

theorem natChars_ne_nil (n : Nat) : natChars n ≠ [] := by
  by_cases h : n = 0
  · subst h; simp [natChars]
  · rw [natChars_eq n h]
    simp [Nat.digits_ne_nil_iff_ne_zero.mpr h]

theorem natChars_all_digits (n : Nat) : ∀ c ∈ natChars n, isDigit c = true := by
  by_cases h : n = 0
  · subst h; intro c hc; simp [natChars] at hc; subst hc; decide
  · rw [natChars_eq n h]
    intro c hc
    obtain ⟨d, hd, hdc⟩ := List.mem_map.mp hc
    have hd10 : d < 10 := Nat.digits_lt_base (by norm_num) (List.mem_reverse.mp hd)
    rw [← hdc]
    exact digitChar_isDigit d hd10

theorem foldr_digits_ofDigits (ds : List Nat) (h : ∀ d ∈ ds, d < 10) :
    ds.foldr (fun d a => 10 * a + ((Nat.digitChar d).toNat - 48)) 0 =
      Nat.ofDigits 10 ds := by
  induction ds with
  | nil => simp [Nat.ofDigits]
  | cons d t ih =>
    have hd : d < 10 := h d (by simp)
    have ht := ih fun x hx => h x (by simp [hx])
    simp only [List.foldr_cons, ht, Nat.ofDigits_cons]
    rw [digitChar_toNat d hd]
    omega

theorem charsNat?_natChars (n : Nat) : charsNat? (natChars n) = some n := by
  by_cases h : n = 0
  · subst h; decide
  · rw [charsNat?, if_pos ⟨natChars_ne_nil n, List.all_eq_true.mpr (natChars_all_digits n)⟩]
    congr 1
    rw [natChars_eq n h, digitsVal]
    rw [List.foldl_map, List.foldl_reverse]
    have hfold := foldr_digits_ofDigits (Nat.digits 10 n)
      (fun d hd => Nat.digits_lt_base (by norm_num) hd)
    rw [hfold, Nat.ofDigits_digits]

theorem isDigit_ne_sign (c : Char) (h : isDigit c = true) : c ≠ '-' ∧ c ≠ '+' := by
  constructor <;> rintro rfl <;> simp [isDigit] at h

theorem charsInt?_intChars (i : Int) : charsInt? (intChars i) = some i := by
  by_cases hneg : i < 0
  · rw [intChars, if_pos hneg]
    show charsInt? ('-' :: natChars i.natAbs) = some i
    rw [charsInt?, if_pos rfl, charsNat?_natChars]
    show some (-(i.natAbs : Int)) = some i
    congr 1
    omega
  · rw [intChars, if_neg hneg]
    obtain ⟨c, t, hct⟩ : ∃ c t, natChars i.toNat = c :: t := by
      rcases h : natChars i.toNat with _ | ⟨c, t⟩
      · exact absurd h (natChars_ne_nil _)
      · exact ⟨c, t, rfl⟩
    have hcd : isDigit c = true := natChars_all_digits _ c (by rw [hct]; simp)
    obtain ⟨hm, hp⟩ := isDigit_ne_sign c hcd
    rw [hct, charsInt?, if_neg hm, if_neg hp, ← hct, charsNat?_natChars]
    show some ((i.toNat : Nat) : Int) = some i
    congr 1
    omega

theorem intChars_chars (i : Int) : ∀ c ∈ intChars i, isDigit c = true ∨ c = '-' := by
  intro c hc
  rw [intChars] at hc
  by_cases hneg : i < 0
  · rw [if_pos hneg] at hc
    rcases List.mem_cons.mp hc with h | h
    · right; exact h
    · left; exact natChars_all_digits _ c h
  · rw [if_neg hneg] at hc
    left; exact natChars_all_digits _ c hc

theorem intChars_no_colon (i : Int) : ∀ c ∈ intChars i, c ≠ ':' := by
  intro c hc
  rcases intChars_chars i c hc with h | h
  · rintro rfl; simp [isDigit] at h
  · rintro rfl; simp at h

theorem intChars_ne_nil (i : Int) : intChars i ≠ [] := by
  rw [intChars]
  by_cases hneg : i < 0
  · rw [if_pos hneg]; simp
  · rw [if_neg hneg]; exact natChars_ne_nil _

theorem splitColon_ne_nil (l : List Char) : splitColon l ≠ [] := by
  induction l with
  | nil => simp [splitColon]
  | cons c t ih =>
    rw [splitColon]
    rcases h : splitColon t with _ | ⟨g, gs⟩
    · exact absurd h ih
    · by_cases hc : c = ':' <;> simp [hc]

theorem splitColon_no_colon (l : List Char) (h : ∀ c ∈ l, c ≠ ':') :
    splitColon l = [l] := by
  induction l with
  | nil => rfl
  | cons c t ih =>
    have hc : ¬ c = ':' := h c (by simp)
    rw [splitColon, ih fun x hx => h x (by simp [hx])]
    simp [hc]

theorem splitColon_prepend (x : List Char) (hx : ∀ c ∈ x, c ≠ ':')
    (l : List Char) (g : List Char) (gs : List (List Char))
    (hl : splitColon l = g :: gs) :
    splitColon (x ++ l) = (x ++ g) :: gs := by
  induction x with
  | nil => simpa using hl
  | cons c t ih =>
    have ih' := ih fun y hy => hx y (by simp [hy])
    have hc : ¬ c = ':' := hx c (by simp)
    rw [List.cons_append, splitColon, ih']
    simp [hc]

theorem splitColon_joinColon : ∀ parts : List (List Char), parts ≠ [] →
    (∀ p ∈ parts, ∀ c ∈ p, c ≠ ':') → splitColon (joinColon parts) = parts := by
  intro parts
  induction parts with
  | nil => intro h; exact absurd rfl h
  | cons p ps ih =>
    intro _ hcol
    rcases ps with _ | ⟨q, rest⟩
    · exact splitColon_no_colon p (hcol p (by simp))
    · show splitColon (p ++ ':' :: joinColon (q :: rest)) = p :: q :: rest
      have hrec : splitColon (joinColon (q :: rest)) = q :: rest :=
        ih (by simp) fun x hx => hcol x (by simp [hx])
      have hcolon : splitColon (':' :: joinColon (q :: rest)) = [] :: q :: rest := by
        rw [splitColon, hrec]
        simp
      have := splitColon_prepend p (hcol p (by simp)) (':' :: joinColon (q :: rest))
        [] (q :: rest) hcolon
      simpa using this

theorem decodeParts_map_intChars (v : List Int) :
    decodeParts (v.map intChars) = some v := by
  induction v with
  | nil => rfl
  | cons x t ih =>
    show decodeParts (intChars x :: t.map intChars) = some (x :: t)
    rw [decodeParts, charsInt?_intChars, ih]

theorem make_vertex_name_key (v : List Int) (h : v ≠ []) :
    make_vertex_name (make_vertex_key v) = some v := by
  rw [make_vertex_name, make_vertex_key]
  rw [splitColon_joinColon (v.map intChars) (by simpa using h)
    (by intro p hp; obtain ⟨i, _, hip⟩ := List.mem_map.mp hp; rw [← hip]
        exact intChars_no_colon i)]
  exact decodeParts_map_intChars v

theorem make_vertex_key_ne_nil (v : List Int) (h : v ≠ []) :
    make_vertex_key v ≠ [] := by
  rcases v with _ | ⟨x, t⟩
  · exact absurd rfl h
  · rw [make_vertex_key]
    rcases t with _ | ⟨y, s⟩
    · show joinColon [intChars x] ≠ []
      simpa [joinColon] using intChars_ne_nil x
    · show intChars x ++ ':' :: joinColon (intChars y :: s.map intChars) ≠ []
      simp

theorem make_vertex_key_inj (u v : List Int)
    (h : make_vertex_key u = make_vertex_key v) : u = v := by
  rcases hu : u with _ | ⟨x, t⟩
  · rcases hv : v with _ | ⟨y, s⟩
    · rfl
    · subst hu hv
      exact absurd h.symm (make_vertex_key_ne_nil _ (by simp))
  · rcases hv : v with _ | ⟨y, s⟩
    · subst hu hv
      exact absurd h (make_vertex_key_ne_nil _ (by simp))
    · subst hu hv
      have h1 := make_vertex_name_key (x :: t) (by simp)
      have h2 := make_vertex_name_key (y :: s) (by simp)
      rw [h, h2] at h1
      exact (Option.some_injective _ h1).symm

/-! ## Reachability lemmas -/

theorem reachN_length (b : Bool) (m : Nat) : ∀ v w, ReachN b m v w → w.length = v.length := by
  induction m with
  | zero => intro v w h; rw [h]
  | succ m ih =>
    intro v w h
    obtain ⟨k, hk, hr⟩ := h
    rw [ih _ _ hr, flip_length]

theorem reachN_trans (b : Bool) (m : Nat) : ∀ m' u v w, ReachN b m u v →
    ReachN b m' v w → ReachN b (m + m') u w := by
  induction m with
  | zero =>
    intro m' u v w h1 h2
    rw [show (0 + m' : Nat) = m' by omega]
    rw [h1] at h2
    exact h2
  | succ m ih =>
    intro m' u v w h1 h2
    obtain ⟨k, hk, hr⟩ := h1
    have h3 := ih m' _ v w hr h2
    rw [show (m + 1 + m' : Nat) = (m + m') + 1 by omega]
    exact ⟨k, hk, h3⟩

theorem reachN_single (b : Bool) (u : List Int) (k : Nat) (hk : k < u.length) :
    ReachN b 1 u (flip b u k) := ⟨k, hk, rfl⟩

theorem reachN_snoc (b : Bool) (m : Nat) (v u : List Int) (k : Nat)
    (h : ReachN b m v u) (hk : k < u.length) : ReachN b (m + 1) v (flip b u k) :=
  reachN_trans b m 1 v u (flip b u k) h (reachN_single b u k hk)

theorem reachN_succ_elim (b : Bool) (m : Nat) : ∀ v w, ReachN b (m + 1) v w →
    ∃ u k, ReachN b m v u ∧ k < u.length ∧ w = flip b u k := by
  induction m with
  | zero =>
    intro v w h
    obtain ⟨k, hk, hr⟩ := h
    exact ⟨v, k, rfl, hk, hr⟩
  | succ m ih =>
    intro v w h
    obtain ⟨k, hk, hr⟩ := h
    obtain ⟨u, k', hru, hk', hw⟩ := ih _ _ hr
    exact ⟨u, k', ⟨k, hk, hru⟩, hk', hw⟩

theorem reachN_symm (b : Bool) (m : Nat) : ∀ v w, ReachN b m v w → ReachN b m w v := by
  induction m with
  | zero =>
    intro v w h
    show v = w
    exact (show w = v from h).symm
  | succ m ih =>
    intro v w h
    obtain ⟨k, hk, hr⟩ := h
    have h1 := ih _ _ hr
    have h2 := reachN_snoc b m w (flip b v k) k h1 (by rw [flip_length]; exact hk)
    rwa [flip_flip b v k hk] at h2

theorem reachN_pool (b : Bool) (start : List Int) (m : Nat) :
    ∀ v w, ReachN b m v w → (∀ x ∈ v, x ∈ start ∨ -x ∈ start) →
    ∀ x ∈ w, x ∈ start ∨ -x ∈ start := by
  induction m with
  | zero => intro v w h hp; rw [h]; exact hp
  | succ m ih =>
    intro v w h hp
    obtain ⟨k, hk, hr⟩ := h
    refine ih _ _ hr ?_
    intro x hx
    rcases flip_mem b v k hk x hx with h1 | h1
    · exact hp x h1
    · rcases hp _ h1 with h2 | h2
      · right; exact h2
      · left; simpa using h2

/-! ## Lookup lemmas for the visited map -/

theorem vfind_cons (k k' : Key) (r : VRec) (t : List (Key × VRec)) :
    vfind ((k, r) :: t) k' = if k = k' then some r else vfind t k' := rfl

theorem vfind_mem {vis : List (Key × VRec)} {k : Key} {r : VRec}
    (h : vfind vis k = some r) : (k, r) ∈ vis := by
  induction vis with
  | nil => simp [vfind] at h
  | cons kr t ih =>
    obtain ⟨k0, r0⟩ := kr
    rw [vfind_cons] at h
    by_cases hk : k0 = k
    · subst hk
      rw [if_pos rfl] at h
      obtain rfl : r0 = r := Option.some_injective _ h
      exact List.mem_cons_self _ _
    · rw [if_neg hk] at h
      exact List.mem_cons_of_mem _ (ih h)

theorem vfind_none_iff (vis : List (Key × VRec)) (k : Key) :
    vfind vis k = none ↔ k ∉ vis.map Prod.fst := by
  induction vis with
  | nil => exact ⟨fun _ h => absurd h (List.not_mem_nil k), fun _ => rfl⟩
  | cons kr t ih =>
    obtain ⟨k0, r0⟩ := kr
    rw [vfind_cons, List.map_cons]
    by_cases hk : k0 = k
    · rw [if_pos hk]
      constructor
      · intro h; exact Option.noConfusion h
      · intro h
        exact absurd (List.mem_cons.mpr (Or.inl hk.symm)) h
    · rw [if_neg hk]
      constructor
      · intro h hmem
        rcases List.mem_cons.mp hmem with h1 | h1
        · exact hk h1.symm
        · exact (ih.mp h) h1
      · intro h
        exact ih.mpr fun h1 => h (List.mem_cons_of_mem _ h1)

theorem vfind_isSome_of_mem {vis : List (Key × VRec)} {k : Key} {r : VRec}
    (h : (k, r) ∈ vis) : vfind vis k ≠ none := by
  intro hnone
  exact ((vfind_none_iff vis k).mp hnone) (List.mem_map.mpr ⟨(k, r), h, rfl⟩)

theorem vfind_of_mem_nodup {vis : List (Key × VRec)} {k : Key} {r : VRec}
    (h : (k, r) ∈ vis) (hnd : (vis.map Prod.fst).Nodup) : vfind vis k = some r := by
  induction vis with
  | nil => simp at h
  | cons kr t ih =>
    obtain ⟨k0, r0⟩ := kr
    rw [List.map_cons, List.nodup_cons] at hnd
    rcases List.mem_cons.mp h with h1 | h1
    · have hk : k = k0 := congrArg Prod.fst h1
      have hr : r = r0 := congrArg Prod.snd h1
      rw [vfind_cons, if_pos hk.symm, hr]
    · have hk0 : k0 ≠ k := by
        rintro rfl
        exact hnd.1 (List.mem_map.mpr ⟨(k0, r), h1, rfl⟩)
      rw [vfind_cons, if_neg hk0]
      exact ih h1 hnd.2

/-! ## Specification of the neighbor-insertion loop -/

/-- What one pass of the neighbor-insertion loop guarantees. -/
structure InsSpec (visited : List (Key × VRec)) (queue : List Key) (d : Nat)
    (pk : Key) (nbrs : List Key) (vis' : List (Key × VRec)) (q' : List Key) : Prop where
  (pres : ∀ k r, vfind visited k = some r → vfind vis' k = some r)
  (new_shape : ∀ k r, vfind vis' k = some r → vfind visited k = some r ∨
      (k ∈ nbrs ∧ r.dist = d + 1 ∧ r.prev = some pk ∧ k = make_vertex_key r.name))
  (queue_ext : ∃ newks, q' = queue ++ newks ∧
      (∀ k ∈ newks, vfind visited k = none ∧ k ∈ nbrs ∧ vfind vis' k ≠ none) ∧
      newks.Nodup ∧ vis'.length = visited.length + newks.length ∧
      (∀ k, vfind visited k = none → vfind vis' k ≠ none → k ∈ newks))
  (covered : ∀ nk ∈ nbrs, ∃ r', vfind vis' nk = some r' ∧
      (vfind visited nk = some r' ∨ (r'.dist = d + 1 ∧ r'.prev = some pk)))
  (nodup : (visited.map Prod.fst).Nodup → (vis'.map Prod.fst).Nodup)
  (mono_none : ∀ k, vfind vis' k = none → vfind visited k = none)

theorem insertNeighbors_spec (d : Nat) (pk : Key) :
    ∀ (nbrs : List Key) (visited : List (Key × VRec)) (queue : List Key),
    (∀ nk ∈ nbrs, ∃ nm : List Int, nm ≠ [] ∧ nk = make_vertex_key nm) →
    ∃ vis' q', insertNeighbors visited queue d pk nbrs = some (vis', q') ∧
      InsSpec visited queue d pk nbrs vis' q' := by
  intro nbrs
  induction nbrs with
  | nil =>
    intro visited queue _
    refine ⟨visited, queue, rfl, ?_⟩
    exact {
      pres := fun k r h => h
      new_shape := fun k r h => Or.inl h
      queue_ext := ⟨[], by simp, by simp, by simp, by simp, fun k h1 h2 => absurd h1 h2⟩
      covered := fun nk hnk => absurd hnk (List.not_mem_nil nk)
      nodup := fun h => h
      mono_none := fun k h => h }
  | cons nk rest ih =>
    intro visited queue hdec
    rcases hfind : vfind visited nk with _ | r0
    · -- nk not yet visited: insert it and recurse
      obtain ⟨nm0, hnm0, henc⟩ := hdec nk (by simp)
      have hname : make_vertex_name nk = some nm0 := by
        rw [henc]; exact make_vertex_name_key nm0 hnm0
      obtain ⟨vis', q', heq, spec⟩ := ih ((nk, ⟨nm0, d + 1, some pk⟩) :: visited)
        (queue ++ [nk]) (fun x hx => hdec x (by simp [hx]))
      refine ⟨vis', q', ?_, ?_⟩
      · rw [insertNeighbors, hfind, hname]; exact heq
      have hfresh : ∀ k (r : VRec), vfind visited k = some r → nk ≠ k := by
        rintro k r h rfl
        rw [hfind] at h
        exact Option.noConfusion h
      refine {
        pres := fun k r h => spec.pres k r (by
          rw [vfind_cons, if_neg (hfresh k r h)]; exact h)
        new_shape := ?_
        queue_ext := ?_
        covered := ?_
        nodup := ?_
        mono_none := ?_ }
      · intro k r h
        rcases spec.new_shape k r h with h1 | h1
        · rw [vfind_cons] at h1
          by_cases hk : nk = k
          · rw [if_pos hk] at h1
            right
            have hr : r = ⟨nm0, d + 1, some pk⟩ := (Option.some_injective _ h1).symm
            refine ⟨by rw [← hk]; exact List.mem_cons_self _ _, by rw [hr], by rw [hr], ?_⟩
            rw [hr, ← hk, henc]
          · rw [if_neg hk] at h1
            exact Or.inl h1
        · exact Or.inr ⟨List.mem_cons_of_mem _ h1.1, h1.2.1, h1.2.2.1, h1.2.2.2⟩
      · obtain ⟨newks, hq, hprops, hnd, hlen, hnewmem⟩ := spec.queue_ext
        refine ⟨nk :: newks, by rw [hq]; simp, ?_, ?_, ?_, ?_⟩
        · intro k hk
          rcases List.mem_cons.mp hk with h1 | h1
          · rw [h1]
            refine ⟨hfind, List.mem_cons_self _ _, ?_⟩
            have hnk : vfind ((nk, ⟨nm0, d + 1, some pk⟩) :: visited) nk =
                some ⟨nm0, d + 1, some pk⟩ := by rw [vfind_cons, if_pos rfl]
            rw [spec.pres _ _ hnk]
            simp
          · obtain ⟨hn, hm, hp⟩ := hprops k h1
            refine ⟨?_, List.mem_cons_of_mem _ hm, hp⟩
            rw [vfind_cons] at hn
            by_cases hkk : nk = k
            · rw [if_pos hkk] at hn; exact Option.noConfusion hn
            · rwa [if_neg hkk] at hn
        · rw [List.nodup_cons]
          refine ⟨?_, hnd⟩
          intro hmem
          obtain ⟨hn, _, _⟩ := hprops nk hmem
          rw [vfind_cons, if_pos rfl] at hn
          exact Option.noConfusion hn
        · rw [hlen]; simp; omega
        · intro k h1 h2
          by_cases hkk : nk = k
          · rw [hkk]; exact List.mem_cons_self _ _
          · refine List.mem_cons_of_mem _ (hnewmem k ?_ h2)
            rw [vfind_cons, if_neg hkk]
            exact h1
      · intro x hx
        rcases List.mem_cons.mp hx with h1 | h1
        · rw [h1]
          have hnew : vfind ((nk, ⟨nm0, d + 1, some pk⟩) :: visited) nk =
              some ⟨nm0, d + 1, some pk⟩ := by rw [vfind_cons, if_pos rfl]
          exact ⟨_, spec.pres _ _ hnew, Or.inr ⟨rfl, rfl⟩⟩
        · obtain ⟨r', hr', hcase⟩ := spec.covered x h1
          refine ⟨r', hr', ?_⟩
          rcases hcase with h2 | h2
          · rw [vfind_cons] at h2
            by_cases hkk : nk = x
            · rw [if_pos hkk] at h2
              right
              have : r' = ⟨nm0, d + 1, some pk⟩ := (Option.some_injective _ h2).symm
              rw [this]
              exact ⟨rfl, rfl⟩
            · rw [if_neg hkk] at h2
              exact Or.inl h2
          · exact Or.inr h2
      · intro hnd
        refine spec.nodup ?_
        rw [List.map_cons, List.nodup_cons]
        exact ⟨(vfind_none_iff visited nk).mp hfind, hnd⟩
      · intro k h
        have := spec.mono_none k h
        rw [vfind_cons] at this
        by_cases hkk : nk = k
        · rw [if_pos hkk] at this; exact Option.noConfusion this
        · rwa [if_neg hkk] at this
    · -- nk already visited: skip it
      obtain ⟨vis', q', heq, spec⟩ := ih visited queue (fun x hx => hdec x (by simp [hx]))
      refine ⟨vis', q', by rw [insertNeighbors, hfind]; exact heq, ?_⟩
      refine {
        pres := spec.pres
        new_shape := fun k r h => (spec.new_shape k r h).imp id
          (fun h1 => ⟨List.mem_cons_of_mem _ h1.1, h1.2⟩)
        queue_ext := ?_
        covered := ?_
        nodup := spec.nodup
        mono_none := spec.mono_none }
      · obtain ⟨newks, hq, hprops, hnd, hlen, hnewmem⟩ := spec.queue_ext
        exact ⟨newks, hq, fun k hk => ⟨(hprops k hk).1,
          List.mem_cons_of_mem _ (hprops k hk).2.1, (hprops k hk).2.2⟩, hnd, hlen, hnewmem⟩
      · intro x hx
        rcases List.mem_cons.mp hx with h1 | h1
        · rw [h1]
          exact ⟨r0, spec.pres _ _ hfind, Or.inl hfind⟩
        · exact spec.covered x h1

/-! ## The BFS invariant -/

/-- Invariant of the still-searching phase (`fewest_moves` not yet set):
the goal, if discovered, is still queued; every dequeued-and-expanded
vertex has all its neighbors recorded with distance at most one more;
queue distances are non-decreasing; and relative to the queue front,
queued distances are at most front + 1 and processed distances at most
front. -/
structure InvA (b : Bool) (start goal : List Int) (s : BFSState) : Prop where
  (goal_pending : vfind s.visited (make_vertex_key goal) ≠ none →
      make_vertex_key goal ∈ s.queue)
  (expanded : ∀ k r, vfind s.visited k = some r → k ∉ s.queue →
      ∀ j, j < r.name.length →
      ∃ r', vfind s.visited (make_vertex_key (flip b r.name j)) = some r' ∧
        r'.dist ≤ r.dist + 1)
  (sorted : List.Pairwise (fun k k' => ∀ r r', vfind s.visited k = some r →
      vfind s.visited k' = some r' → r.dist ≤ r'.dist) s.queue)
  (front_bound : ∀ h t, s.queue = h :: t → ∀ rh, vfind s.visited h = some rh →
      (∀ k ∈ s.queue, ∀ r, vfind s.visited k = some r → r.dist ≤ rh.dist + 1) ∧
      (∀ k r, vfind s.visited k = some r → k ∉ s.queue → r.dist ≤ rh.dist))

/-- Invariant of the found phase (`fewest_moves = some d`): the recorded
distance is exact, the goal is recorded and no longer queued, and
`best_path` is a genuine flip path of length `d + 1` from start to goal. -/
structure InvB (b : Bool) (start goal : List Int) (s : BFSState) (d : Nat) : Prop where
  (reach : ReachN b d start goal)
  (minimal : ∀ m, ReachN b m start goal → d ≤ m)
  (goal_done : make_vertex_key goal ∉ s.queue)
  (goal_mem : vfind s.visited (make_vertex_key goal) ≠ none)
  (path : ∃ names : List (List Int), s.best_path = names.map make_vertex_key ∧
      names.head? = some start ∧ names.getLast? = some goal ∧
      names.length = d + 1 ∧
      List.Chain' (fun u v => ∃ j, j < u.length ∧ v = flip b u j) names)

/-- The full invariant of one `Graph.BFS` run. -/
structure Inv (b : Bool) (start goal : List Int) (s : BFSState) : Prop where
  (nodup_keys : (s.visited.map Prod.fst).Nodup)
  (coh : ∀ k r, vfind s.visited k = some r →
      k = make_vertex_key r.name ∧ r.name.length = start.length ∧
      (∀ x ∈ r.name, x ∈ start ∨ -x ∈ start) ∧
      ReachN b r.dist start r.name ∧ r.dist < s.visited.length)
  (start_mem : vfind s.visited (make_vertex_key start) = some ⟨start, 0, none⟩)
  (prev_none : ∀ k r, vfind s.visited k = some r → r.prev = none →
      k = make_vertex_key start)
  (prev_ok : ∀ k r, vfind s.visited k = some r → ∀ p, r.prev = some p →
      ∃ rp, vfind s.visited p = some rp ∧ r.dist = rp.dist + 1 ∧
        ∃ j, j < rp.name.length ∧ r.name = flip b rp.name j)
  (queue_sub : ∀ k ∈ s.queue, vfind s.visited k ≠ none)
  (queue_nodup : s.queue.Nodup)
  (phase : (s.fewest_moves = none ∧ InvA b start goal s) ∨
      (∃ d, s.fewest_moves = some d ∧ InvB b start goal s d))

/-- The head of `Graph.BFS` establishes the invariant unconditionally. -/
theorem initState_inv (b : Bool) (start goal : List Int) :
    Inv b start goal (initState start) := by
  have hfind : ∀ k r, vfind (initState start).visited k = some r →
      k = make_vertex_key start ∧ r = ⟨start, 0, none⟩ := by
    intro k r h
    rw [show (initState start).visited = [(make_vertex_key start, ⟨start, 0, none⟩)] from rfl,
      vfind_cons] at h
    by_cases hk : make_vertex_key start = k
    · rw [if_pos hk] at h
      exact ⟨hk.symm, (Option.some_injective _ h).symm⟩
    · rw [if_neg hk] at h
      exact Option.noConfusion h
  refine {
    nodup_keys := by simp [initState]
    coh := ?_
    start_mem := by rw [show (initState start).visited =
        [(make_vertex_key start, ⟨start, 0, none⟩)] from rfl, vfind_cons, if_pos rfl]
    prev_none := fun k r h _ => (hfind k r h).1
    prev_ok := ?_
    queue_sub := ?_
    queue_nodup := by simp [initState]
    phase := Or.inl ⟨rfl, ?_⟩ }
  · intro k r h
    obtain ⟨hk, hr⟩ := hfind k r h
    subst hr
    refine ⟨hk, rfl, fun x hx => Or.inl hx, rfl, ?_⟩
    simp [initState]
  · intro k r h p hp
    obtain ⟨_, hr⟩ := hfind k r h
    subst hr
    exact Option.noConfusion hp
  · intro k hk
    have : k = make_vertex_key start := by
      simpa [initState] using hk
    rw [this, show (initState start).visited =
      [(make_vertex_key start, ⟨start, 0, none⟩)] from rfl, vfind_cons, if_pos rfl]
    simp
  · refine {
      goal_pending := ?_
      expanded := ?_
      sorted := by simp [initState]
      front_bound := ?_ }
    · intro hg
      rcases hfind' : vfind (initState start).visited (make_vertex_key goal) with _ | r
      · exact absurd hfind' hg
      · obtain ⟨hk, _⟩ := hfind _ _ hfind'
        rw [hk]
        simp [initState]
    · intro k r h hk
      obtain ⟨hkey, _⟩ := hfind k r h
      exact absurd (by rw [hkey]; simp [initState] : k ∈ (initState start).queue) hk
    · intro h t hq rh hrh
      constructor
      · intro k hkq r hr
        have hk := (hfind k r hr).2
        have hh := (hfind h rh hrh).2
        rw [hk, hh]
        simp
      · intro k r hr hknot
        have hkey := (hfind k r hr).1
        exact absurd (by rw [hkey]; simp [initState] : k ∈ (initState start).queue) hknot

/-- Walking `prev` links from a coherently recorded vertex reconstructs a
flip path from the start, provided the fuel exceeds the recorded
distance. -/
theorem traceback_spec (b : Bool) (start : List Int) (visited : List (Key × VRec))
    (hstart : vfind visited (make_vertex_key start) = some ⟨start, 0, none⟩)
    (hcoh : ∀ k r, vfind visited k = some r → k = make_vertex_key r.name)
    (hprev_none : ∀ k r, vfind visited k = some r → r.prev = none →
      k = make_vertex_key start)
    (hprev_ok : ∀ k r, vfind visited k = some r → ∀ p, r.prev = some p →
      ∃ rp, vfind visited p = some rp ∧ r.dist = rp.dist + 1 ∧
        ∃ j, j < rp.name.length ∧ r.name = flip b rp.name j) :
    ∀ fuel k r acc, vfind visited k = some r → r.dist < fuel →
    ∃ names : List (List Int),
      tracebackFuel visited fuel k acc = some (names.map make_vertex_key ++ acc) ∧
      names ≠ [] ∧ names.head? = some start ∧ names.getLast? = some r.name ∧
      names.length = r.dist + 1 ∧
      List.Chain' (fun u v => ∃ j, j < u.length ∧ v = flip b u j) names := by
  intro fuel
  induction fuel with
  | zero => intro k r acc _ h; omega
  | succ fuel ih =>
    intro k r acc hk hd
    rcases hprev : r.prev with _ | p
    · have hkey := hprev_none k r hk hprev
      have hrec : r = ⟨start, 0, none⟩ := by
        rw [hkey] at hk
        rw [hstart] at hk
        exact (Option.some_injective _ hk).symm
      refine ⟨[start], ?_, by simp, by simp, by rw [hrec]; simp, by rw [hrec]; simp, by simp⟩
      simp only [tracebackFuel, hk, hprev]
      rw [hkey]
      simp
    · obtain ⟨rp, hrp, hdist, j, hj, hname⟩ := hprev_ok k r hk p hprev
      obtain ⟨names', heq, hne, hhead, hlast, hlen, hchain⟩ :=
        ih p rp (k :: acc) hrp (by omega)
      refine ⟨names' ++ [r.name], ?_, by simp, ?_, ?_, ?_, ?_⟩
      · simp only [tracebackFuel, hk, hprev]
        rw [heq]
        congr 1
        rw [List.map_append]
        simp [hcoh k r hk]
      · rcases names' with _ | ⟨x, xs⟩
        · exact absurd rfl hne
        · simpa using hhead
      · simp
      · simp [hlen, hdist]
      · rw [List.chain'_append]
        refine ⟨hchain, by simp, ?_⟩
        intro x hx y hy
        rw [hlast] at hx
        have hx' : rp.name = x := by simpa using hx
        have hy' : r.name = y := by simpa using hy
        rw [← hx', ← hy']
        exact ⟨j, hj, hname⟩

/-- While the search is still running, every vertex within distance less
than the queue front's recorded distance is already recorded, with a
recorded distance no larger than its true distance. -/
theorem visited_dist_lower (b : Bool) (start goal : List Int) (s : BFSState)
    (hInv : Inv b start goal s) (hA : InvA b start goal s)
    (h0 : Key) (rest : List Key) (hq : s.queue = h0 :: rest)
    (rh : VRec) (hrh : vfind s.visited h0 = some rh) :
    ∀ m, m < rh.dist → ∀ w, ReachN b m start w →
      ∃ rw, vfind s.visited (make_vertex_key w) = some rw ∧ rw.dist ≤ m := by
  intro m
  induction m with
  | zero =>
    intro _ w hw
    have hw' : w = start := hw
    rw [hw']
    exact ⟨⟨start, 0, none⟩, hInv.start_mem, le_refl 0⟩
  | succ m ih =>
    intro hlt w hw
    obtain ⟨u, k, hru, hk, hwu⟩ := reachN_succ_elim b m start w hw
    obtain ⟨ru, hfu, hdu⟩ := ih (by omega) u hru
    by_cases hmem : make_vertex_key u ∈ s.queue
    · exfalso
      rw [hq] at hmem
      rcases List.mem_cons.mp hmem with h1 | h1
      · rw [h1, hrh] at hfu
        have heq : rh = ru := Option.some_injective _ hfu
        rw [heq] at hlt
        omega
      · have hsorted := hA.sorted
        rw [hq] at hsorted
        have hrel := (List.pairwise_cons.mp hsorted).1 _ h1
        have := hrel rh ru hrh hfu
        omega
    · have hcoh := hInv.coh _ _ hfu
      have hun : ru.name = u := make_vertex_key_inj _ _ hcoh.1.symm
      obtain ⟨r', hr', hr'd⟩ := hA.expanded _ _ hfu hmem k
        (by rw [hun]; exact (reachN_length b m start u hru).symm ▸ hk)
      refine ⟨r', ?_, by omega⟩
      rw [hwu, ← hun]
      exact hr'

/-- When the queue has emptied with the goal still unfound, every
reachable vertex has been recorded. -/
theorem bfs_closure (b : Bool) (start goal : List Int) (s : BFSState)
    (hInv : Inv b start goal s) (hA : InvA b start goal s)
    (hq : s.queue = []) :
    ∀ m w, ReachN b m start w → vfind s.visited (make_vertex_key w) ≠ none := by
  intro m
  induction m with
  | zero =>
    intro w hw
    have hw' : w = start := hw
    rw [hw', hInv.start_mem]
    simp
  | succ m ih =>
    intro w hw
    obtain ⟨u, k, hru, hk, hwu⟩ := reachN_succ_elim b m start w hw
    have hu := ih u hru
    rcases hfu : vfind s.visited (make_vertex_key u) with _ | ru
    · exact absurd hfu hu
    have hcoh := hInv.coh _ _ hfu
    have hun : ru.name = u := make_vertex_key_inj _ _ hcoh.1.symm
    obtain ⟨r', hr', _⟩ := hA.expanded _ _ hfu (by rw [hq]; exact List.not_mem_nil _) k
      (by rw [hun]; exact (reachN_length b m start u hru).symm ▸ hk)
    rw [hwu, ← hun, hr']
    simp

/-- One iteration of the BFS loop from an invariant state: the loop either
finishes (empty queue) or takes a step that preserves the invariant and
never raises a lookup or decode error.  The step keeps every existing
visited record, never changes a set `fewest_moves`, and dequeues exactly
one key while enqueueing one per newly recorded vertex. -/
theorem bfsStep_total (b : Bool) (start goal : List Int) (s : BFSState)
    (hInv : Inv b start goal s) :
    (s.queue = [] ∧ bfsStep b (make_vertex_key goal) s = .done s) ∨
    (∃ s', bfsStep b (make_vertex_key goal) s = .next s' ∧ Inv b start goal s' ∧
      (∀ k r, vfind s.visited k = some r → vfind s'.visited k = some r) ∧
      (∀ d, s.fewest_moves = some d → s'.fewest_moves = some d) ∧
      ∃ t, s'.visited.length = s.visited.length + t ∧
        s'.queue.length + 1 = s.queue.length + t) := by
  rcases hq : s.queue with _ | ⟨vk, rest⟩
  · left
    refine ⟨rfl, ?_⟩
    simp only [bfsStep, hq]
  · right
    have hvkmem : vk ∈ s.queue := by rw [hq]; exact List.mem_cons_self _ _
    have hvk_some := hInv.queue_sub vk hvkmem
    rcases hfind : vfind s.visited vk with _ | rvk
    · exact absurd hfind hvk_some
    have hcohvk := hInv.coh _ _ hfind
    by_cases hgoal : vk = make_vertex_key goal
    · -- the goal vertex is dequeued: record the distance and the path
      have hphase : s.fewest_moves = none ∧ InvA b start goal s := by
        rcases hInv.phase with h | ⟨d, _, hB⟩
        · exact h
        · exact absurd (by rw [hq, ← hgoal]; exact List.mem_cons_self _ _ :
            make_vertex_key goal ∈ s.queue) hB.goal_done
      obtain ⟨hfel, hA⟩ := hphase
      obtain ⟨names, htbeq, hne, hhead, hlast, hlen, hchain⟩ :=
        traceback_spec b start s.visited hInv.start_mem
          (fun k r h => (hInv.coh k r h).1) hInv.prev_none hInv.prev_ok
          s.visited.length vk rvk [] hfind hcohvk.2.2.2.2
      rw [List.append_nil] at htbeq
      have hnamegoal : rvk.name = goal :=
        make_vertex_key_inj _ _ (hcohvk.1.symm.trans hgoal)
      refine ⟨{ s with
          queue := rest
          fewest_moves := some rvk.dist
          best_path := names.map make_vertex_key }, ?_, ?_, fun k r h => h,
        ?_, ⟨0, by simp, by simp⟩⟩
      · simp only [bfsStep, hq]
        rw [if_pos hgoal, ← hgoal]
        simp only [hfind, htbeq]
      · refine {
          nodup_keys := hInv.nodup_keys
          coh := hInv.coh
          start_mem := hInv.start_mem
          prev_none := hInv.prev_none
          prev_ok := hInv.prev_ok
          queue_sub := fun k hk =>
            hInv.queue_sub k (by rw [hq]; exact List.mem_cons_of_mem _ hk)
          queue_nodup := by
            have hnd := hInv.queue_nodup
            rw [hq] at hnd
            exact hnd.of_cons
          phase := Or.inr ⟨rvk.dist, rfl, ?_⟩ }
        refine {
          reach := ?_
          minimal := ?_
          goal_done := ?_
          goal_mem := ?_
          path := ⟨names, rfl, hhead, by rw [hlast, hnamegoal], hlen, hchain⟩ }
        · have hr := hcohvk.2.2.2.1
          rwa [hnamegoal] at hr
        · intro m hm
          by_contra hlt
          push_neg at hlt
          obtain ⟨rw0, hrw0, hrw0d⟩ := visited_dist_lower b start goal s hInv hA
            vk rest hq rvk hfind m (by omega) goal hm
          rw [← hgoal, hfind] at hrw0
          have hr : rvk = rw0 := Option.some_injective _ hrw0
          rw [← hr] at hrw0d
          omega
        · show make_vertex_key goal ∉ rest
          have hnd := hInv.queue_nodup
          rw [hq] at hnd
          rw [← hgoal]
          exact (List.nodup_cons.mp hnd).1
        · show vfind s.visited (make_vertex_key goal) ≠ none
          rw [← hgoal, hfind]
          simp
      · intro d hd
        rw [hfel] at hd
        exact Option.noConfusion hd
    · -- an ordinary vertex is dequeued: expand its neighbors
      have hnbrs : find_neighbors b s.visited vk =
          some ((List.range rvk.name.length).map
            fun i => make_vertex_key (flip b rvk.name i)) := by
        rw [find_neighbors, hfind]
        rfl
      have hdec : ∀ nk ∈ (List.range rvk.name.length).map
          (fun i => make_vertex_key (flip b rvk.name i)),
          ∃ nm : List Int, nm ≠ [] ∧ nk = make_vertex_key nm := by
        intro nk hnk
        obtain ⟨i, hi, hik⟩ := List.mem_map.mp hnk
        have hi' := List.mem_range.mp hi
        refine ⟨flip b rvk.name i, ?_, hik.symm⟩
        apply List.ne_nil_of_length_pos
        rw [flip_length]
        omega
      obtain ⟨vis', q', hins, spec⟩ := insertNeighbors_spec rvk.dist vk
        ((List.range rvk.name.length).map fun i => make_vertex_key (flip b rvk.name i))
        s.visited rest hdec
      obtain ⟨newks, hq'eq, hnewprops, hnewnd, hvlen, hnewmem⟩ := spec.queue_ext
      have hold_det : ∀ k (r r0 : VRec), vfind s.visited k = some r0 →
          vfind vis' k = some r → r = r0 := by
        intro k r r0 h0 h
        have h1 : some r = some r0 := by rw [← h]; exact spec.pres _ _ h0
        exact Option.some_injective _ h1
      have hfresh_data : ∀ k r, vfind vis' k = some r → vfind s.visited k = none →
          k ∈ newks ∧ r.dist = rvk.dist + 1 ∧ r.prev = some vk ∧
          k = make_vertex_key r.name ∧
          ∃ j, j < rvk.name.length ∧ r.name = flip b rvk.name j := by
        intro k r h hnone
        have hmem := hnewmem k hnone (by rw [h]; simp)
        rcases spec.new_shape k r h with h1 | h1
        · rw [hnone] at h1
          exact Option.noConfusion h1
        · obtain ⟨hnb, hdist, hprev, hkey⟩ := h1
          obtain ⟨j, hj, hjk⟩ := List.mem_map.mp hnb
          have hj' := List.mem_range.mp hj
          have hrname : r.name = flip b rvk.name j := by
            apply make_vertex_key_inj
            rw [← hkey, ← hjk]
          exact ⟨hmem, hdist, hprev, hkey, j, hj', hrname⟩
      have hcoh' : ∀ k r, vfind vis' k = some r →
          k = make_vertex_key r.name ∧ r.name.length = start.length ∧
          (∀ x ∈ r.name, x ∈ start ∨ -x ∈ start) ∧
          ReachN b r.dist start r.name ∧ r.dist < vis'.length := by
        intro k r h
        rcases hold : vfind s.visited k with _ | r0
        · obtain ⟨hmem, hdist, _, hkey, j, hj, hrname⟩ := hfresh_data k r h hold
          refine ⟨hkey, ?_, ?_, ?_, ?_⟩
          · rw [hrname, flip_length]
            exact hcohvk.2.1
          · intro x hx
            rw [hrname] at hx
            rcases flip_mem b rvk.name j hj x hx with h1 | h1
            · exact hcohvk.2.2.1 x h1
            · rcases hcohvk.2.2.1 _ h1 with h2 | h2
              · right; exact h2
              · left; simpa using h2
          · rw [hdist, hrname]
            exact reachN_snoc b rvk.dist start rvk.name j hcohvk.2.2.2.1 hj
          · have hd0 := hcohvk.2.2.2.2
            have hpos : 0 < newks.length :=
              List.length_pos.mpr (List.ne_nil_of_mem hmem)
            rw [hdist, hvlen]
            omega
        · have hrr0 := hold_det k r r0 hold h
          obtain ⟨h1, h2, h3, h4, h5⟩ := hInv.coh k r0 hold
          rw [hrr0]
          exact ⟨h1, h2, h3, h4, by omega⟩
      have hprev_none' : ∀ k r, vfind vis' k = some r → r.prev = none →
          k = make_vertex_key start := by
        intro k r h hp
        rcases hold : vfind s.visited k with _ | r0
        · obtain ⟨_, _, hprev, _, _⟩ := hfresh_data k r h hold
          rw [hprev] at hp
          exact Option.noConfusion hp
        · rw [hold_det k r r0 hold h] at hp
          exact hInv.prev_none k r0 hold hp
      have hprev_ok' : ∀ k r, vfind vis' k = some r → ∀ p, r.prev = some p →
          ∃ rp, vfind vis' p = some rp ∧ r.dist = rp.dist + 1 ∧
            ∃ j, j < rp.name.length ∧ r.name = flip b rp.name j := by
        intro k r h p hp
        rcases hold : vfind s.visited k with _ | r0
        · obtain ⟨_, hdist, hprev, _, j, hj, hrname⟩ := hfresh_data k r h hold
          rw [hprev] at hp
          have hpk : vk = p := Option.some_injective _ hp
          refine ⟨rvk, ?_, hdist, j, hj, hrname⟩
          rw [← hpk]
          exact spec.pres _ _ hfind
        · have hrr0 := hold_det k r r0 hold h
          rw [hrr0] at hp ⊢
          obtain ⟨rp, hrp, hd, j, hj, hn⟩ := hInv.prev_ok k r0 hold p hp
          exact ⟨rp, spec.pres _ _ hrp, hd, j, hj, hn⟩
      have hqsub' : ∀ k ∈ q', vfind vis' k ≠ none := by
        intro k hk
        rw [hq'eq] at hk
        rcases List.mem_append.mp hk with h1 | h1
        · have hks := hInv.queue_sub k (by rw [hq]; exact List.mem_cons_of_mem _ h1)
          rcases hold : vfind s.visited k with _ | r0
          · exact absurd hold hks
          · rw [spec.pres _ _ hold]
            simp
        · exact (hnewprops k h1).2.2
      have hrestnd : rest.Nodup := by
        have hnd := hInv.queue_nodup
        rw [hq] at hnd
        exact hnd.of_cons
      have hqnd' : q'.Nodup := by
        rw [hq'eq]
        refine List.Nodup.append hrestnd hnewnd ?_
        intro k hk1 hk2
        have h1 := hInv.queue_sub k (by rw [hq]; exact List.mem_cons_of_mem _ hk1)
        exact h1 (hnewprops k hk2).1
      have hrestold : ∀ k ∈ rest, ∃ r0, vfind s.visited k = some r0 := by
        intro k hk
        have hks := hInv.queue_sub k (by rw [hq]; exact List.mem_cons_of_mem _ hk)
        rcases hold : vfind s.visited k with _ | r0
        · exact absurd hold hks
        · exact ⟨r0, rfl⟩
      have hnewdist : ∀ k ∈ newks, ∀ r, vfind vis' k = some r →
          r.dist = rvk.dist + 1 := by
        intro k hk r h
        exact (hfresh_data k r h (hnewprops k hk).1).2.1
      have hmeasure : q'.length + 1 = (vk :: rest).length + newks.length := by
        rw [hq'eq]
        simp [List.length_append]
        omega
      refine ⟨{ s with visited := vis', queue := q' }, ?_, ?_, spec.pres,
        fun d hd => hd, ⟨newks.length, hvlen, hmeasure⟩⟩
      · simp only [bfsStep, hq]
        rw [if_neg hgoal]
        simp only [hnbrs, hfind, hins]
      refine {
        nodup_keys := spec.nodup hInv.nodup_keys
        coh := hcoh'
        start_mem := spec.pres _ _ hInv.start_mem
        prev_none := hprev_none'
        prev_ok := hprev_ok'
        queue_sub := hqsub'
        queue_nodup := hqnd'
        phase := ?_ }
      rcases hInv.phase with ⟨hfel, hA⟩ | ⟨d, hfeq, hB⟩
      · left
        obtain ⟨hqbound, hpbound⟩ := hA.front_bound vk rest hq rvk hfind
        have hsortedA := hA.sorted
        rw [hq] at hsortedA
        obtain ⟨hhead_rel, hrest_pair⟩ := List.pairwise_cons.mp hsortedA
        refine ⟨hfel, ?_⟩
        refine {
          goal_pending := ?_
          expanded := ?_
          sorted := ?_
          front_bound := ?_ }
        · intro hg
          rcases hold : vfind s.visited (make_vertex_key goal) with _ | rg
          · show make_vertex_key goal ∈ q'
            rw [hq'eq]
            exact List.mem_append_right _ (hnewmem _ hold hg)
          · have hgp := hA.goal_pending (by rw [hold]; simp)
            rw [hq] at hgp
            show make_vertex_key goal ∈ q'
            rcases List.mem_cons.mp hgp with h1 | h1
            · exact absurd h1.symm hgoal
            · rw [hq'eq]
              exact List.mem_append_left _ h1
        · intro k r h hknot j hj
          rcases hold : vfind s.visited k with _ | r0
          · obtain ⟨hmem, _, _, _, _⟩ := hfresh_data k r h hold
            exact absurd (by rw [hq'eq]; exact List.mem_append_right _ hmem :
              k ∈ q') hknot
          · have hrr0 := hold_det k r r0 hold h
            rw [hrr0] at hj ⊢
            by_cases hkvk : k = vk
            · have hr0vk : r0 = rvk := by
                rw [hkvk] at hold
                exact Option.some_injective _ (hold.symm.trans hfind)
              rw [hr0vk] at hj ⊢
              have hnbmem : make_vertex_key (flip b rvk.name j) ∈
                  (List.range rvk.name.length).map
                    (fun i => make_vertex_key (flip b rvk.name i)) :=
                List.mem_map.mpr ⟨j, List.mem_range.mpr hj, rfl⟩
              obtain ⟨r', hr', hcase⟩ := spec.covered _ hnbmem
              refine ⟨r', hr', ?_⟩
              rcases hcase with h1 | h1
              · by_cases hnbq : make_vertex_key (flip b rvk.name j) ∈ s.queue
                · have := hqbound _ hnbq r' h1
                  omega
                · have := hpbound _ r' h1 hnbq
                  omega
              · omega
            · have hknot_old : k ∉ s.queue := by
                rw [hq]
                intro hmem
                rcases List.mem_cons.mp hmem with h1 | h1
                · exact hkvk h1
                · exact hknot (by rw [hq'eq]; exact List.mem_append_left _ h1)
              obtain ⟨r', hr', hb⟩ := hA.expanded k r0 hold hknot_old j hj
              exact ⟨r', spec.pres _ _ hr', hb⟩
        · show List.Pairwise _ q'
          rw [hq'eq]
          refine List.pairwise_append.mpr ⟨?_, ?_, ?_⟩
          · refine hrest_pair.imp_of_mem ?_
            intro a c ha hc hrel r r' hfa hfc
            obtain ⟨ra0, ha0⟩ := hrestold a ha
            obtain ⟨rc0, hc0⟩ := hrestold c hc
            rw [hold_det a r ra0 ha0 hfa, hold_det c r' rc0 hc0 hfc]
            exact hrel ra0 rc0 ha0 hc0
          · refine List.pairwise_of_forall_mem_list ?_
            intro a ha c hc r r' hfa hfc
            rw [hnewdist a ha r hfa, hnewdist c hc r' hfc]
          · intro a ha c hc r r' hfa hfc
            obtain ⟨ra0, ha0⟩ := hrestold a ha
            rw [hold_det a r ra0 ha0 hfa, hnewdist c hc r' hfc]
            have := hqbound a (by rw [hq]; exact List.mem_cons_of_mem _ ha) ra0 ha0
            omega
        · intro h0 t0 hq0 rh hrh
          have hq0' : q' = h0 :: t0 := hq0
          have hh0mem : h0 ∈ q' := by rw [hq0']; exact List.mem_cons_self _ _
          have hDle : rvk.dist ≤ rh.dist := by
            rw [hq'eq] at hh0mem
            rcases List.mem_append.mp hh0mem with h1 | h1
            · obtain ⟨r0, h00⟩ := hrestold h0 h1
              rw [hold_det h0 rh r0 h00 hrh]
              exact hhead_rel h0 h1 rvk r0 hfind h00
            · rw [hnewdist h0 h1 rh hrh]
              omega
          constructor
          · intro k hk r hfk
            rw [hq'eq] at hk
            rcases List.mem_append.mp hk with h1 | h1
            · obtain ⟨r0, h00⟩ := hrestold k h1
              rw [hold_det k r r0 h00 hfk]
              have := hqbound k (by rw [hq]; exact List.mem_cons_of_mem _ h1) r0 h00
              omega
            · rw [hnewdist k h1 r hfk]
              omega
          · intro k r hfk hknot
            rcases hold : vfind s.visited k with _ | r0
            · obtain ⟨hmem, _, _, _, _⟩ := hfresh_data k r hfk hold
              exact absurd (by rw [hq'eq]; exact List.mem_append_right _ hmem :
                k ∈ q') hknot
            · rw [hold_det k r r0 hold hfk]
              by_cases hkvk : k = vk
              · have hr0vk : r0 = rvk := by
                  rw [hkvk] at hold
                  exact Option.some_injective _ (hold.symm.trans hfind)
                rw [hr0vk]
                exact hDle
              · have hknot_old : k ∉ s.queue := by
                  rw [hq]
                  intro hmem
                  rcases List.mem_cons.mp hmem with h1 | h1
                  · exact hkvk h1
                  · exact hknot (by rw [hq'eq]; exact List.mem_append_left _ h1)
                have := hpbound k r0 hold hknot_old
                omega
      · right
        refine ⟨d, hfeq, ?_⟩
        refine {
          reach := hB.reach
          minimal := hB.minimal
          goal_done := ?_
          goal_mem := ?_
          path := hB.path }
        · show make_vertex_key goal ∉ q'
          rw [hq'eq]
          intro hmem
          rcases List.mem_append.mp hmem with h1 | h1
          · exact hB.goal_done (by rw [hq]; exact List.mem_cons_of_mem _ h1)
          · rcases holdg : vfind s.visited (make_vertex_key goal) with _ | rg
            · exact hB.goal_mem holdg
            · exact absurd (hnewprops _ h1).1 (by rw [holdg]; simp)
        · show vfind vis' (make_vertex_key goal) ≠ none
          rcases holdg : vfind s.visited (make_vertex_key goal) with _ | rg
          · exact absurd holdg hB.goal_mem
          · rw [spec.pres _ _ holdg]
            simp

/-! ## Whole-run lemmas -/

/-- A completed run preserves the invariant, ends with an empty queue,
keeps every visited record, and never changes a set `fewest_moves`. -/
theorem bfsRun_some_inv (b : Bool) (start goal : List Int) :
    ∀ fuel s s', bfsRun b (make_vertex_key goal) fuel s = some s' →
    Inv b start goal s →
    Inv b start goal s' ∧ s'.queue = [] ∧
    (∀ k r, vfind s.visited k = some r → vfind s'.visited k = some r) ∧
    (∀ d, s.fewest_moves = some d → s'.fewest_moves = some d) := by
  intro fuel
  induction fuel with
  | zero =>
    intro s s' h
    exact absurd h (by rw [bfsRun]; exact Option.noConfusion)
  | succ fuel ih =>
    intro s s' h hInv
    rcases bfsStep_total b start goal s hInv with ⟨hqe, hstep⟩ |
      ⟨s1, hstep, hInv1, hpres, hfm, _⟩
    · simp only [bfsRun, hstep] at h
      obtain rfl : s = s' := Option.some_injective _ h
      exact ⟨hInv, hqe, fun k r hr => hr, fun d hd => hd⟩
    · simp only [bfsRun, hstep] at h
      obtain ⟨hI, hq, hp, hf⟩ := ih s1 s' h hInv1
      exact ⟨hI, hq, fun k r hr => hp k r (hpres k r hr), fun d hd => hf d (hfm d hd)⟩

/-- With enough fuel (relative to a bound `N` on how large the visited map
can grow), the run completes. -/
theorem bfsRun_enough_fuel (b : Bool) (start goal : List Int) (N : Nat)
    (hbound : ∀ s, Inv b start goal s → s.visited.length ≤ N) :
    ∀ fuel s, Inv b start goal s →
      2 * N + s.queue.length < fuel + 2 * s.visited.length →
      ∃ s', bfsRun b (make_vertex_key goal) fuel s = some s' := by
  intro fuel
  induction fuel with
  | zero =>
    intro s hInv harith
    have := hbound s hInv
    omega
  | succ fuel ih =>
    intro s hInv harith
    rcases bfsStep_total b start goal s hInv with ⟨hqe, hstep⟩ |
      ⟨s1, hstep, hInv1, _, _, t, hvlen, hqlen⟩
    · exact ⟨s, by simp only [bfsRun, hstep]⟩
    · have hb1 := hbound s1 hInv1
      obtain ⟨s', hs'⟩ := ih s1 hInv1 (by omega)
      exact ⟨s', by simp only [bfsRun, hstep]; exact hs'⟩

/-! ## A finite bound on the visited map -/

/-- All integer lists of length `m` with entries drawn from `pool`. -/
def tuples : Nat → List Int → List (List Int)
  | 0, _ => [[]]
  | m + 1, pool => pool.flatMap fun x => (tuples m pool).map fun t => x :: t

theorem mem_tuples (pool : List Int) : ∀ m l, l ∈ tuples m pool ↔
    l.length = m ∧ ∀ x ∈ l, x ∈ pool := by
  intro m
  induction m with
  | zero =>
    intro l
    constructor
    · intro h
      have hl : l = [] := by simpa [tuples] using h
      rw [hl]
      exact ⟨rfl, fun x hx => absurd hx (List.not_mem_nil x)⟩
    · intro ⟨h1, _⟩
      have hl : l = [] := List.length_eq_zero.mp h1
      rw [hl]
      simp [tuples]
  | succ m ih =>
    intro l
    rw [show tuples (m + 1) pool =
      pool.flatMap fun x => (tuples m pool).map fun t => x :: t from rfl]
    rw [List.mem_flatMap]
    constructor
    · rintro ⟨x, hx, hl⟩
      obtain ⟨t, ht, hlt⟩ := List.mem_map.mp hl
      obtain ⟨htl, hte⟩ := (ih t).mp ht
      rw [← hlt]
      refine ⟨by simp [htl], ?_⟩
      intro y hy
      rcases List.mem_cons.mp hy with h1 | h1
      · rw [h1]; exact hx
      · exact hte y h1
    · rintro ⟨hlen, hent⟩
      rcases l with _ | ⟨x, t⟩
      · simp at hlen
      · refine ⟨x, hent x (List.mem_cons_self _ _), ?_⟩
        refine List.mem_map.mpr ⟨t, ?_, rfl⟩
        refine (ih t).mpr ⟨by simpa using hlen, ?_⟩
        intro y hy
        exact hent y (List.mem_cons_of_mem _ hy)

/-- The visited map never holds more records than there are length-`n`
lists over the signed entries of the start vertex. -/
theorem visited_bound (b : Bool) (start goal : List Int) (s : BFSState)
    (hInv : Inv b start goal s) :
    s.visited.length ≤ (tuples start.length (start ++ start.map fun x => -x)).length := by
  have hpt : ∀ kr ∈ s.visited, kr.1 = make_vertex_key kr.2.name ∧
      kr.2.name.length = start.length ∧
      (∀ x ∈ kr.2.name, x ∈ start ∨ -x ∈ start) := by
    intro kr hkr
    obtain ⟨k, r⟩ := kr
    have hf := vfind_of_mem_nodup hkr hInv.nodup_keys
    obtain ⟨h1, h2, h3, _, _⟩ := hInv.coh k r hf
    exact ⟨h1, h2, h3⟩
  have hkeys : s.visited.map Prod.fst =
      (s.visited.map fun kr => kr.2.name).map make_vertex_key := by
    rw [List.map_map]
    exact List.map_congr_left fun kr hkr => (hpt kr hkr).1
  have hnd : (s.visited.map fun kr => kr.2.name).Nodup := by
    have := hInv.nodup_keys
    rw [hkeys] at this
    exact this.of_map
  have hsub : ∀ nm ∈ s.visited.map fun kr => kr.2.name,
      nm ∈ tuples start.length (start ++ start.map fun x => -x) := by
    intro nm hnm
    obtain ⟨kr, hkr, hkrnm⟩ := List.mem_map.mp hnm
    obtain ⟨_, h2, h3⟩ := hpt kr hkr
    rw [← hkrnm]
    refine (mem_tuples _ _ _).mpr ⟨h2, ?_⟩
    intro x hx
    rcases h3 x hx with h | h
    · exact List.mem_append_left _ h
    · refine List.mem_append_right _ (List.mem_map.mpr ⟨-x, h, by ring⟩)
  have hlen : (s.visited.map fun kr => kr.2.name).length = s.visited.length := by
    simp
  rw [← hlen]
  have hcard1 : (s.visited.map fun kr => kr.2.name).toFinset.card =
      (s.visited.map fun kr => kr.2.name).length := List.toFinset_card_of_nodup hnd
  have hcard2 : (s.visited.map fun kr => kr.2.name).toFinset ⊆
      (tuples start.length (start ++ start.map fun x => -x)).toFinset := by
    intro nm hnm
    rw [List.mem_toFinset] at hnm ⊢
    exact hsub nm hnm
  calc (s.visited.map fun kr => kr.2.name).length
      = (s.visited.map fun kr => kr.2.name).toFinset.card := hcard1.symm
    _ ≤ (tuples start.length (start ++ start.map fun x => -x)).toFinset.card :=
        Finset.card_le_card hcard2
    _ ≤ (tuples start.length (start ++ start.map fun x => -x)).length :=
        (tuples start.length (start ++ start.map fun x => -x)).toFinset_card_le

/-- `Graph.BFS` terminates on every input: some fuel completes the run. -/
theorem BFS_terminates (b : Bool) (start goal : List Int) :
    ∃ fuel st, BFS b start goal fuel = some st := by
  obtain ⟨st, hst⟩ := bfsRun_enough_fuel b start goal
    (tuples start.length (start ++ start.map fun x => -x)).length
    (fun s hs => visited_bound b start goal s hs)
    (2 * (tuples start.length (start ++ start.map fun x => -x)).length + 2)
    (initState start) (initState_inv b start goal)
    (by simp [initState])
  exact ⟨_, st, hst⟩

/-- Partial correctness of a completed run: when the goal is reachable at
all, `fewest_moves` ends up set to the exact shortest flip distance. -/
theorem BFS_partial_correct (b : Bool) (start goal : List Int)
    (hreach : ∃ m, ReachN b m start goal) :
    ∀ fuel st, BFS b start goal fuel = some st →
      ∃ d, st.fewest_moves = some d ∧ ReachN b d start goal ∧
        (∀ m, ReachN b m start goal → d ≤ m) := by
  intro fuel st hrun
  obtain ⟨hInv, hqe, _, _⟩ := bfsRun_some_inv b start goal fuel (initState start) st
    hrun (initState_inv b start goal)
  rcases hInv.phase with ⟨hfel, hA⟩ | ⟨d, hfeq, hB⟩
  · exfalso
    obtain ⟨m, hm⟩ := hreach
    have hmem := bfs_closure b start goal st hInv hA hqe m goal hm
    have hgp := hA.goal_pending hmem
    rw [hqe] at hgp
    exact List.not_mem_nil _ hgp
  · exact ⟨d, hfeq, hB.reach, hB.minimal⟩

/-! ## Connectivity: every valid arrangement reaches every other -/

/-- The sorted arrangement `[1, 2, ..., n]`. -/
def idperm (n : Nat) : List Int := (List.range n).map fun i => ((i + 1 : Nat) : Int)

@[simp] theorem idperm_length (n : Nat) : (idperm n).length = n := by simp [idperm]

theorem idperm_snoc (n : Nat) : idperm (n + 1) = idperm n ++ [((n + 1 : Nat) : Int)] := by
  rw [idperm, List.range_succ, List.map_append, idperm]
  simp

/-- Flip steps inside a list prefix lift along a fixed suffix. -/
theorem reachN_append (b : Bool) (m : Nat) : ∀ u u' t, ReachN b m u u' →
    ReachN b m (u ++ t) (u' ++ t) := by
  induction m with
  | zero =>
    intro u u' t h
    show u' ++ t = u ++ t
    rw [show u' = u from h]
  | succ m ih =>
    intro u u' t h
    obtain ⟨k, hk, hr⟩ := h
    refine ⟨k, by rw [List.length_append]; omega, ?_⟩
    rw [flip_append b u t k hk]
    exact ih _ _ t hr

theorem perm_snoc_cancel (a : Nat) (l1 l2 : List Nat)
    (h : (l1 ++ [a]).Perm (l2 ++ [a])) : l1.Perm l2 := by
  have h1 : (a :: l1).Perm (a :: l2) :=
    ((List.perm_append_singleton a l1).symm.trans h).trans (List.perm_append_singleton a l2)
  exact h1.cons_inv

theorem eq_take_append_getLast (l : List Int) (h : 0 < l.length) :
    l = l.take (l.length - 1) ++ [l.getD (l.length - 1) 0] := by
  conv_lhs => rw [← List.take_append_drop (l.length - 1) l]
  congr 1
  rw [List.drop_eq_getElem_cons (by omega : l.length - 1 < l.length)]
  rw [show l.length - 1 + 1 = l.length from by omega, List.drop_length]
  rw [List.getD_eq_getElem l 0 (by omega)]

theorem flip_headD (b : Bool) (v : List Int) (k : Nat) (hk : k < v.length) :
    (flip b v k).getD 0 0 = (if b then (-1 : Int) else 1) * v.getD k 0 := by
  rw [List.getD_eq_getElem _ 0 (by rw [flip_length]; omega)]
  rw [flip_getElem b v k 0 (by rw [flip_length]; omega), if_pos (Nat.zero_le k)]
  rw [Nat.sub_zero]

theorem flip_lastD (b : Bool) (v : List Int) (h : 0 < v.length) :
    (flip b v (v.length - 1)).getD (v.length - 1) 0 =
      (if b then (-1 : Int) else 1) * v.getD 0 0 := by
  rw [List.getD_eq_getElem _ 0 (by rw [flip_length]; omega)]
  rw [flip_getElem b v (v.length - 1) (v.length - 1) (by rw [flip_length]; omega)]
  rw [if_pos (le_refl _), Nat.sub_self]

/-- One round of the selection-sort argument: a valid arrangement reaches,
in at most three flips, an arrangement with the largest disc correctly
placed at the bottom, the rest remaining a valid shorter arrangement. -/
theorem sort_step (b : Bool) (u : List Int) (hne : u ≠ [])
    (hperm : (u.map Int.natAbs).Perm (List.range' 1 u.length))
    (hpos : b = false → ∀ x ∈ u, 0 < x) :
    ∃ m w, ReachN b m u (w ++ [(u.length : Int)]) ∧
      w.length = u.length - 1 ∧
      (w.map Int.natAbs).Perm (List.range' 1 w.length) ∧
      (b = false → ∀ x ∈ w, 0 < x) := by
  have hn : 0 < u.length := List.length_pos.mpr hne
  -- find the position of the largest disc
  have hmem : u.length ∈ u.map Int.natAbs :=
    hperm.mem_iff.mpr (List.mem_range'_1.mpr ⟨hn, by omega⟩)
  obtain ⟨y, hy, hyabs⟩ := List.mem_map.mp hmem
  obtain ⟨p, hp, hup⟩ := List.getElem_of_mem hy
  have hupD : u.getD p 0 = y := by
    rw [List.getD_eq_getElem u 0 hp]
    exact hup
  have hycase : y = (u.length : Int) ∨ y = -(u.length : Int) := by omega
  -- reach an arrangement `v` with the right sign of `n` on top
  have hstage : ∃ m1 v, ReachN b m1 u v ∧ v.length = u.length ∧
      ((v.map Int.natAbs).Perm (u.map Int.natAbs)) ∧
      (b = false → ∀ x ∈ v, 0 < x) ∧
      v.getD 0 0 = (if b then -(u.length : Int) else (u.length : Int)) := by
    cases b with
    | false =>
      have hy0 : 0 < y := hpos rfl y hy
      have hyn : y = (u.length : Int) := by omega
      refine ⟨1, flip false u p, reachN_single false u p hp, by simp, ?_, ?_, ?_⟩
      · exact flip_natAbs_perm false u p hp
      · intro _ x hx
        exact flip_pos u p hp (hpos rfl) x hx
      · rw [flip_headD false u p hp, hupD, hyn]
        simp
    | true =>
      rcases hycase with hyn | hyn
      · refine ⟨1, flip true u p, reachN_single true u p hp, by simp, ?_, ?_, ?_⟩
        · exact flip_natAbs_perm true u p hp
        · intro h; exact absurd h (by simp)
        · rw [flip_headD true u p hp, hupD, hyn]
          simp
      · -- `-n` is at position `p`: bring it up, then turn it over
        refine ⟨2, flip true (flip true u p) 0, ?_, by simp, ?_, ?_, ?_⟩
        · exact reachN_snoc true 1 u (flip true u p) 0
            (reachN_single true u p hp) (by rw [flip_length]; omega)
        · exact (flip_natAbs_perm true (flip true u p) 0
            (by rw [flip_length]; omega)).trans (flip_natAbs_perm true u p hp)
        · intro h; exact absurd h (by simp)
        · rw [flip_headD true (flip true u p) 0 (by rw [flip_length]; omega)]
          rw [flip_headD true u p hp, hupD, hyn]
          simp
  obtain ⟨m1, v, hrv, hvlen, hvperm, hvpos, hvhead⟩ := hstage
  have hvn : 0 < v.length := by omega
  -- the closing flip of the whole stack
  have hw'len : (flip b v (v.length - 1)).length = u.length := by
    rw [flip_length]; omega
  have hw'last : (flip b v (v.length - 1)).getD (u.length - 1) 0 = (u.length : Int) := by
    have h1 := flip_lastD b v hvn
    rw [hvhead] at h1
    rw [show u.length - 1 = v.length - 1 from by omega, h1]
    cases b <;> simp
  have hrw' : ReachN b (m1 + 1) u (flip b v (v.length - 1)) :=
    reachN_snoc b m1 u v (v.length - 1) hrv (by omega)
  have hw'perm : ((flip b v (v.length - 1)).map Int.natAbs).Perm
      (List.range' 1 u.length) :=
    ((flip_natAbs_perm b v (v.length - 1) (by omega)).trans hvperm).trans hperm
  -- split off the bottom disc
  have hsplit : flip b v (v.length - 1) =
      (flip b v (v.length - 1)).take (u.length - 1) ++ [(u.length : Int)] := by
    have h1 := eq_take_append_getLast (flip b v (v.length - 1)) (by omega)
    rw [hw'len, hw'last] at h1
    exact h1
  have htakelen : ((flip b v (v.length - 1)).take (u.length - 1)).length =
      u.length - 1 := by
    rw [List.length_take]
    omega
  refine ⟨m1 + 1, (flip b v (v.length - 1)).take (u.length - 1), ?_, htakelen, ?_, ?_⟩
  · rw [← hsplit]
    exact hrw'
  · rw [htakelen]
    have hperm2 : (((flip b v (v.length - 1)).take (u.length - 1)).map Int.natAbs
        ++ [u.length]).Perm (List.range' 1 (u.length - 1) ++ [u.length]) := by
      have h1 : ((flip b v (v.length - 1)).map Int.natAbs) =
          ((flip b v (v.length - 1)).take (u.length - 1)).map Int.natAbs
            ++ [u.length] := by
        conv_lhs => rw [hsplit]
        rw [List.map_append]
        simp
      have h2 : List.range' 1 u.length =
          List.range' 1 (u.length - 1) ++ [u.length] := by
        have h3 := @List.range'_concat 1 1 (u.length - 1)
        rw [show u.length - 1 + 1 = u.length from by omega] at h3
        rw [h3]
        congr 1
        simp
        omega
      rw [← h1, ← h2]
      exact hw'perm
    exact perm_snoc_cancel _ _ _ hperm2
  · intro hb x hx
    subst hb
    exact flip_pos v (v.length - 1) (by omega) (hvpos rfl) x (List.mem_of_mem_take hx)


/-- Every valid arrangement reaches the identity arrangement. -/
theorem reach_idperm (b : Bool) : ∀ n (u : List Int), u.length = n →
    (u.map Int.natAbs).Perm (List.range' 1 u.length) →
    (b = false → ∀ x ∈ u, 0 < x) →
    ∃ m, ReachN b m u (idperm u.length) := by
  intro n
  induction n with
  | zero =>
    intro u hu _ _
    have : u = [] := List.length_eq_zero.mp hu
    refine ⟨0, ?_⟩
    show idperm u.length = u
    rw [this]
    rfl
  | succ n ih =>
    intro u hu hperm hpos
    obtain ⟨m1, w, hr, hwlen, hwperm, hwpos⟩ :=
      sort_step b u (by rw [← List.length_pos]; omega) hperm hpos
    obtain ⟨m2, hr2⟩ := ih w (by omega) hwperm hwpos
    have hlift := reachN_append b m2 w (idperm w.length) [(u.length : Int)] hr2
    have hid : idperm u.length = idperm w.length ++ [(u.length : Int)] := by
      rw [hu, hwlen, hu]
      rw [show n + 1 - 1 = n from by omega, idperm_snoc]
    rw [← hid] at hlift
    exact ⟨m1 + m2, reachN_trans b m1 m2 u _ _ hr hlift⟩

/-- Any two valid arrangements of the same length in the same mode are
connected by prefix-reversal flips. -/
theorem valid_reach (b : Bool) (s g : List Int) (h : ValidPair b s g) :
    ∃ m, ReachN b m s g := by
  obtain ⟨hs, hg, hlen⟩ := h
  obtain ⟨m1, h1⟩ := reach_idperm b s.length s rfl hs.1 hs.2
  obtain ⟨m2, h2⟩ := reach_idperm b g.length g rfl hg.1 hg.2
  rw [hlen] at h1
  exact ⟨m1 + m2, reachN_trans b m1 m2 s _ g h1 (reachN_symm b m2 g _ h2)⟩

/-! ## The claims -/

/-- C1: For every valid pair of arrangements (start, goal) of the same
length and mode, running `Graph.BFS` terminates and sets `fewest_moves` to
the minimum number of prefix-reversal flips needed to transform start into
goal; in particular `fewest_moves = 0` when start equals goal. -/
theorem C1_BFS_computes_minimum_flips (b : Bool) (start goal : List Int)
    (h : ValidPair b start goal) :
    (∃ fuel st, BFS b start goal fuel = some st) ∧
    (∀ fuel st, BFS b start goal fuel = some st →
      ∃ d, st.fewest_moves = some d ∧ ReachN b d start goal ∧
        (∀ m, ReachN b m start goal → d ≤ m) ∧ (start = goal → d = 0)) := by
  have hreach := valid_reach b start goal h
  refine ⟨BFS_terminates b start goal, ?_⟩
  intro fuel st hrun
  obtain ⟨d, h1, h2, h3⟩ := BFS_partial_correct b start goal hreach fuel st hrun
  refine ⟨d, h1, h2, h3, ?_⟩
  intro heq
  have h0 := h3 0 (show goal = start from heq.symm)
  omega

theorem C1_witness :
    ValidPair false [2, 1] [1, 2] ∧
    ((∃ fuel st, BFS false [2, 1] [1, 2] fuel = some st) ∧
    (∀ fuel st, BFS false [2, 1] [1, 2] fuel = some st →
      ∃ d, st.fewest_moves = some d ∧ ReachN false d [2, 1] [1, 2] ∧
        (∀ m, ReachN false m [2, 1] [1, 2] → d ≤ m) ∧
        (([2, 1] : List Int) = [1, 2] → d = 0))) :=
  ⟨by decide, C1_BFS_computes_minimum_flips false [2, 1] [1, 2] (by decide)⟩

/-- The final state of the concrete run `BFS true [-1] [1] 3`, used by
several witnesses. -/
def signedRunState : BFSState :=
  { visited := [(['1'], ⟨[1], 1, some ['-', '1']⟩), (['-', '1'], ⟨[-1], 0, none⟩)]
    queue := []
    fewest_moves := some 1
    best_path := [['-', '1'], ['1']] }

/-- C2: Whenever a run of `Graph.BFS` succeeds (`fewest_moves` set to `d`),
the path produced by `Graph.traceback` starts with start's key, ends with
goal's key, has length `d + 1`, and every consecutive pair of vertices on
it is related by exactly one application of `flip` for some prefix length. -/
theorem C2_traceback_path_valid (b : Bool) (start goal : List Int) (fuel : Nat)
    (st : BFSState) (d : Nat) (hrun : BFS b start goal fuel = some st)
    (hd : st.fewest_moves = some d) :
    ∃ names : List (List Int), st.best_path = names.map make_vertex_key ∧
      names.head? = some start ∧ names.getLast? = some goal ∧
      names.length = d + 1 ∧
      List.Chain' (fun u v => ∃ k, k < u.length ∧ v = flip b u k) names ∧
      st.best_path.head? = some (make_vertex_key start) ∧
      st.best_path.getLast? = some (make_vertex_key goal) ∧
      st.best_path.length = d + 1 := by
  obtain ⟨hInv, _, _, _⟩ := bfsRun_some_inv b start goal fuel (initState start) st
    hrun (initState_inv b start goal)
  rcases hInv.phase with ⟨hfel, _⟩ | ⟨d', hfeq, hB⟩
  · rw [hfel] at hd
    exact Option.noConfusion hd
  · rw [hfeq] at hd
    obtain rfl : d' = d := Option.some_injective _ hd
    obtain ⟨names, hbp, hhead, hlast, hlen, hchain⟩ := hB.path
    refine ⟨names, hbp, hhead, hlast, hlen, hchain, ?_, ?_, ?_⟩
    · rw [hbp, List.head?_map, hhead]
      rfl
    · rw [hbp, List.getLast?_map, hlast]
      rfl
    · rw [hbp, List.length_map, hlen]

theorem C2_witness :
    (BFS true [-1] [1] 3 = some signedRunState ∧
      signedRunState.fewest_moves = some 1) ∧
    (∃ names : List (List Int),
      signedRunState.best_path = names.map make_vertex_key ∧
      names.head? = some [-1] ∧ names.getLast? = some [1] ∧
      names.length = 1 + 1 ∧
      List.Chain' (fun u v => ∃ k, k < u.length ∧ v = flip true u k) names ∧
      signedRunState.best_path.head? = some (make_vertex_key [-1]) ∧
      signedRunState.best_path.getLast? = some (make_vertex_key [1]) ∧
      signedRunState.best_path.length = 1 + 1) :=
  ⟨⟨by decide, by decide⟩,
    C2_traceback_path_valid true [-1] [1] 3 signedRunState 1 (by decide) (by decide)⟩

/-- C3: For every vertex `v` and every valid prefix length `k` in
`0..n-1`, in both signed and unsigned modes, `flip (flip v k) k = v`. -/
theorem C3_flip_involution (b : Bool) (v : List Int) (k : Nat)
    (hk : k < v.length) : flip b (flip b v k) k = v :=
  flip_flip b v k hk

theorem C3_witness :
    1 < ([2, -1, 3] : List Int).length ∧
      flip true (flip true [2, -1, 3] 1) 1 = [2, -1, 3] :=
  ⟨by decide, C3_flip_involution true [2, -1, 3] 1 (by decide)⟩

/-- C4: After any run of `Graph.BFS`, the visited map satisfies: the start
vertex has distance 0 and no predecessor, every other discovered vertex
with predecessor `p` has `distance = distance(p) + 1`, each key is
recorded once, and records are never changed by a step once created. -/
theorem C4_visited_layering (b : Bool) (start goal : List Int) (fuel : Nat)
    (st : BFSState) (hrun : BFS b start goal fuel = some st) :
    vfind st.visited (make_vertex_key start) = some ⟨start, 0, none⟩ ∧
    (∀ k r, vfind st.visited k = some r → k ≠ make_vertex_key start →
      ∃ p rp, r.prev = some p ∧ vfind st.visited p = some rp ∧
        r.dist = rp.dist + 1) ∧
    (st.visited.map Prod.fst).Nodup ∧
    (∀ s s', Inv b start goal s → bfsStep b (make_vertex_key goal) s = .next s' →
      ∀ k r, vfind s.visited k = some r → vfind s'.visited k = some r) := by
  obtain ⟨hInv, _, _, _⟩ := bfsRun_some_inv b start goal fuel (initState start) st
    hrun (initState_inv b start goal)
  refine ⟨hInv.start_mem, ?_, hInv.nodup_keys, ?_⟩
  · intro k r hfind hne
    rcases hp : r.prev with _ | p
    · exact absurd (hInv.prev_none k r hfind hp) hne
    · obtain ⟨rp, hrp, hdist, _⟩ := hInv.prev_ok k r hfind p hp
      exact ⟨p, rp, rfl, hrp, hdist⟩
  · intro s s' hI hstep k r hfind
    rcases bfsStep_total b start goal s hI with ⟨_, hdone⟩ |
      ⟨s'', hnext, _, hpres, _, _⟩
    · rw [hdone] at hstep
      exact StepRes.noConfusion hstep
    · rw [hnext] at hstep
      obtain rfl : s'' = s' := by
        cases hstep
        rfl
      exact hpres k r hfind

theorem C4_witness :
    BFS true [-1] [1] 3 = some signedRunState ∧
    (vfind signedRunState.visited (make_vertex_key [-1]) = some ⟨[-1], 0, none⟩ ∧
    (∀ k r, vfind signedRunState.visited k = some r → k ≠ make_vertex_key [-1] →
      ∃ p rp, r.prev = some p ∧ vfind signedRunState.visited p = some rp ∧
        r.dist = rp.dist + 1) ∧
    (signedRunState.visited.map Prod.fst).Nodup ∧
    (∀ s s', Inv true [-1] [1] s → bfsStep true (make_vertex_key [1]) s = .next s' →
      ∀ k r, vfind s.visited k = some r → vfind s'.visited k = some r)) :=
  ⟨by decide, C4_visited_layering true [-1] [1] 3 signedRunState (by decide)⟩

/-- C5: For every vertex key present in the visited map whose stored
vertex has length `n`, `find_neighbors` returns the ordered sequence of
the keys of all `n` prefix reversals, one per prefix length `0..n-1`, in
increasing order of `k` with no deduplication; in unsigned mode the
`k = 0` entry is the encoding of the source vertex itself. -/
theorem C5_find_neighbors_ordered (b : Bool) (visited : List (Key × VRec))
    (k : Key) (r : VRec) (hfind : vfind visited k = some r) :
    ∃ l, find_neighbors b visited k = some l ∧ l.length = r.name.length ∧
      (∀ j, j < r.name.length → l.getD j [] = make_vertex_key (flip b r.name j)) ∧
      (b = false → r.name ≠ [] → l.getD 0 [] = make_vertex_key r.name) := by
  refine ⟨(List.range r.name.length).map fun i => make_vertex_key (flip b r.name i),
    by rw [find_neighbors, hfind]; rfl, by simp, ?_, ?_⟩
  · intro j hj
    rw [List.getD_eq_getElem _ [] (by simpa using hj)]
    simp
  · intro hb hne
    subst hb
    have h0 : 0 < r.name.length := List.length_pos.mpr hne
    rw [List.getD_eq_getElem _ [] (by simpa using h0)]
    simp [flip_false_zero]

theorem C5_witness :
    vfind [(['1'], ⟨[1], 0, none⟩)] ['1'] = some ⟨[1], 0, none⟩ ∧
    (∃ l, find_neighbors false [(['1'], ⟨[1], 0, none⟩)] ['1'] = some l ∧
      l.length = ([1] : List Int).length ∧
      (∀ j, j < ([1] : List Int).length →
        l.getD j [] = make_vertex_key (flip false [1] j)) ∧
      (false = false → ([1] : List Int) ≠ [] → l.getD 0 [] = make_vertex_key [1])) :=
  ⟨by decide, C5_find_neighbors_ordered false [(['1'], ⟨[1], 0, none⟩)] ['1']
    ⟨[1], 0, none⟩ (by decide)⟩

/-- C6: The vertex codec is a bijection between vertices and their keys:
decoding inverts encoding, every well-formed key (a key in the image of
the encoder) round-trips, and two vertices are equal iff their keys are. -/
theorem C6_codec_inverse :
    (∀ v : List Int, v ≠ [] → make_vertex_name (make_vertex_key v) = some v) ∧
    (∀ k : Key, (∃ v : List Int, v ≠ [] ∧ k = make_vertex_key v) →
      ∃ w, make_vertex_name k = some w ∧ make_vertex_key w = k) ∧
    (∀ u v : List Int, make_vertex_key u = make_vertex_key v ↔ u = v) := by
  refine ⟨make_vertex_name_key, ?_, ?_⟩
  · rintro k ⟨v, hv, rfl⟩
    exact ⟨v, make_vertex_name_key v hv, rfl⟩
  · intro u v
    exact ⟨make_vertex_key_inj u v, fun h => by rw [h]⟩

theorem C6_witness :
    ([3, -1, 12] : List Int) ≠ [] ∧
      make_vertex_name (make_vertex_key [3, -1, 12]) = some [3, -1, 12] :=
  ⟨by decide, C6_codec_inverse.1 [3, -1, 12] (by decide)⟩

/-- C7 counterexample: the engine does not fail fast on malformed input.
With start `[1]` and goal `[1, 2]` (different lengths), the traversal runs
to normal completion — no validation error is raised before or during the
search — and silently reports `fewest_moves = none`. -/
theorem C7_counterexample :
    BFS false [1] [1, 2] 2 =
      some ⟨[(['1'], ⟨[1], 0, none⟩)], [], none, []⟩ ∧
    (⟨[(['1'], ⟨[1], 0, none⟩)], [], none, []⟩ : BFSState).fewest_moves = none := by
  constructor <;> rfl

/-- C7 (amended): the engine performs no input validation: on a start/goal
length mismatch the search still runs to completion without any error and
finishes with `fewest_moves` unset, rather than failing fast. -/
theorem C7_no_validation (b : Bool) (start goal : List Int)
    (hlen : start.length ≠ goal.length) :
    ∃ fuel st, BFS b start goal fuel = some st ∧ st.fewest_moves = none := by
  obtain ⟨fuel, st, hrun⟩ := BFS_terminates b start goal
  refine ⟨fuel, st, hrun, ?_⟩
  obtain ⟨hInv, _, _, _⟩ := bfsRun_some_inv b start goal fuel (initState start) st
    hrun (initState_inv b start goal)
  rcases hInv.phase with ⟨hfel, _⟩ | ⟨d, hfeq, hB⟩
  · exact hfel
  · exfalso
    rcases hfg : vfind st.visited (make_vertex_key goal) with _ | rg
    · exact hB.goal_mem hfg
    · have hcoh := hInv.coh _ _ hfg
      have hname : rg.name = goal := make_vertex_key_inj _ _ hcoh.1.symm
      have hl := hcoh.2.1
      rw [hname] at hl
      exact hlen hl.symm

theorem C7_witness :
    ([1] : List Int).length ≠ ([1, 2] : List Int).length ∧
    (∃ fuel st, BFS false [1] [1, 2] fuel = some st ∧ st.fewest_moves = none) :=
  ⟨by decide, C7_no_validation false [1] [1, 2] (by decide)⟩

/-- C8: The admission check is true for unsigned mode exactly when the
stack size is below 8 and for signed mode exactly when it is below the
strictly smaller ceiling 6; `BFS_eligible` accepts size 4 unsigned, every
size admitted in signed mode is admitted in unsigned mode, and not
conversely (6 is admitted unsigned but not signed). -/
theorem C8_admission_ceiling : ∀ n : Nat,
    (BFS_eligible false n = true ↔ n < 8) ∧
    (BFS_eligible true n = true ↔ n < 6) ∧
    BFS_eligible false 4 = true ∧
    (BFS_eligible true n = true → BFS_eligible false n = true) ∧
    (BFS_eligible false 6 = true ∧ BFS_eligible true 6 = false) := by
  intro n
  refine ⟨?_, ?_, by decide, ?_, by decide, by decide⟩
  · simp [BFS_eligible]
  · simp [BFS_eligible]
  · intro h
    simp [BFS_eligible] at h ⊢
    omega

theorem C8_witness : BFS_eligible false 3 = true :=
  (C8_admission_ceiling 3).1.mpr (by decide)

/-- C9: In signed mode with n = 1, searching from `[-1]` to `[1]` yields
`fewest_moves = 1` and `best_path = [[-1], [1]]` (the single flip of
prefix length 0 negates the one element), while in unsigned mode flip
with `k = 0` leaves the vertex unchanged. -/
theorem C9_signed_singleton :
    (∃ fuel st, BFS true [-1] [1] fuel = some st ∧ st.fewest_moves = some 1 ∧
      st.best_path = [make_vertex_key [-1], make_vertex_key [1]] ∧
      st.best_path.map make_vertex_name = [some [-1], some [1]]) ∧
    flip true [-1] 0 = [1] ∧ (∀ v : List Int, flip false v 0 = v) := by
  refine ⟨⟨3, signedRunState, by decide, by decide, by decide, by decide⟩,
    by decide, flip_false_zero⟩

/-- C10: `find_neighbors` never decodes its key argument: it looks the
vertex up in the visited map, so a key absent from the map fails with a
lookup error (modelled as `none`), while for any recorded key the lookup
branch always succeeds and returns the neighbor list built from the
stored vertex name. -/
theorem C10_find_neighbors_requires_visited (b : Bool)
    (visited : List (Key × VRec)) (k : Key) :
    (vfind visited k = none → find_neighbors b visited k = none) ∧
    (∀ r, vfind visited k = some r → find_neighbors b visited k =
      some ((List.range r.name.length).map fun i => make_vertex_key (flip b r.name i))) := by
  constructor
  · intro h
    rw [find_neighbors, h]
    rfl
  · intro r h
    rw [find_neighbors, h]
    rfl

theorem C10_witness :
    vfind [] ['1'] = none ∧ find_neighbors false [] ['1'] = none :=
  ⟨rfl, (C10_find_neighbors_requires_visited false [] ['1']).1 rfl⟩

end Pancake
